import Mathlib

/-!
# Verification of the localblocks processor (grafana/tempo)

Shallow embedding of `modules/generator/processor/localblocks/processor.go`:
the per-tenant trace-buffering and block-lifecycle engine.  Pure functions
(`filterBatch`) are translated directly; the stateful processor is modelled as
explicit state passing over a `Processor` record, with the outcomes of external
storage calls (flush, append, create, open, clear, ...) supplied by an
environment of booleans so that both the success paths and the error paths of
the Go code are represented.  Time is modelled as `Int` (Unix-style instants),
block identifiers as `Nat` drawn from a monotone counter (modelling
`uuid.New()`'s global uniqueness), and Go maps as association lists.

The `liveTraces` type (file `live_traces.go`) and the encoding collaborator
(`tempodb/encoding`) are not part of the provided sources; definitions for
them are modelled from the specification and marked as such in their doc
comments.
-/

namespace Localblocks

/-! ## Span data model (pkg/tempopb/trace/v1) -/

/-- Span kinds, from `v1.Span_SpanKind`.  Only `server` matters here. -/
inductive SpanKind where
  | unspecified | internal | server | client | producer | consumer
  deriving DecidableEq, Repr

/-- A span: its trace identifier (a byte sequence, modelled as `List Nat`)
and its kind.  Other fields are irrelevant to this engine. -/
structure Span where
  traceId : List Nat
  kind : SpanKind
  deriving DecidableEq, Repr

/-- `v1.ScopeSpans`: a scope-level group of spans.  The scope itself is an
opaque reference, modelled as a `Nat` token. -/
structure ScopeSpans where
  scope : Nat
  spans : List Span
  deriving DecidableEq, Repr

/-- `v1.ResourceSpans`: a resource-level batch.  The resource is an opaque
reference, modelled as a `Nat` token. -/
structure ResourceSpans where
  resource : Nat
  scopeSpans : List ScopeSpans
  deriving DecidableEq, Repr

/-! ## filterBatch (processor.go lines 477-505) -/

/-- `filterBatch` from processor.go: keep only spans with kind == server,
dropping scope groups that become empty, and returning `none` when no span
survives.  The returned structures reference the same span/scope/resource
values as the input (the Go code never mutates the input). -/
def filterBatch (batch : ResourceSpans) : Option ResourceSpans :=
  let keepSS := batch.scopeSpans.foldr (fun ss acc =>
    let keepSpans := ss.spans.filter (fun s => s.kind = SpanKind.server)
    if keepSpans.length > 0 then
      { scope := ss.scope, spans := keepSpans } :: acc
    else acc) []
  if keepSS.length > 0 then
    some { resource := batch.resource, scopeSpans := keepSS }
  else none

/-- The canonical "spans kept by the filter" function for one scope group. -/
def serverSpans (ss : ScopeSpans) : List Span :=
  ss.spans.filter (fun s => s.kind = SpanKind.server)

/-- The scope groups the filter keeps: each group restricted to its
server-kind spans, empty groups dropped. -/
def keptScopes (batch : ResourceSpans) : List ScopeSpans :=
  (batch.scopeSpans.map (fun ss =>
    ScopeSpans.mk ss.scope (serverSpans ss))).filter
    (fun ss => ss.spans.length > 0)

theorem filterBatch_eq (batch : ResourceSpans) :
    filterBatch batch =
      if (keptScopes batch).length > 0 then
        some (ResourceSpans.mk batch.resource (keptScopes batch))
      else none := by
  have hfold : (batch.scopeSpans.foldr (fun ss acc =>
      let keepSpans := ss.spans.filter (fun s => s.kind = SpanKind.server)
      if keepSpans.length > 0 then
        ScopeSpans.mk ss.scope keepSpans :: acc
      else acc) []) = keptScopes batch := by
    unfold keptScopes serverSpans
    induction batch.scopeSpans with
    | nil => rfl
    | cons ss rest ih =>
      by_cases h : (ss.spans.filter (fun s => s.kind = SpanKind.server)).length > 0
      · simp only [List.foldr, List.map, List.filter_cons, ih]
        simp [h]
      · simp only [List.foldr, List.map, List.filter_cons, ih]
        simp [h]
  unfold filterBatch
  rw [hfold]

theorem keptScopes_eq_nil_iff (batch : ResourceSpans) :
    keptScopes batch = [] ↔
      ∀ ss ∈ batch.scopeSpans, ∀ s ∈ ss.spans, s.kind ≠ SpanKind.server := by
  unfold keptScopes
  rw [List.filter_eq_nil_iff]
  constructor
  · intro h ss hss s hs hk
    have hmem : s ∈ serverSpans ss := by
      unfold serverSpans
      rw [List.mem_filter]
      exact ⟨hs, by simp [hk]⟩
    have := h _ (List.mem_map_of_mem _ hss)
    simp only [decide_eq_true_eq] at this
    exact this (by simpa using List.length_pos.mpr (List.ne_nil_of_mem hmem))
  · intro h a ha
    rcases List.mem_map.mp ha with ⟨ss, hss, rfl⟩
    have : serverSpans ss = [] := by
      unfold serverSpans
      apply List.filter_eq_nil_iff.mpr
      intro s hs
      simpa using h ss hss s hs
    simp [this]

theorem filterBatch_eq_none_iff (batch : ResourceSpans) :
    filterBatch batch = none ↔
      ∀ ss ∈ batch.scopeSpans, ∀ s ∈ ss.spans, s.kind ≠ SpanKind.server := by
  rw [filterBatch_eq, ← keptScopes_eq_nil_iff]
  by_cases h : (keptScopes batch).length > 0
  · rw [if_pos h]
    constructor
    · intro hc; exact absurd hc (Option.some_ne_none _)
    · intro hc
      rw [hc] at h
      exact absurd h (by simp)
  · rw [if_neg h]
    constructor
    · intro _
      cases hx : keptScopes batch with
      | nil => rfl
      | cons a l => exact absurd (by rw [hx]; simp) h
    · intro _; rfl

/-- C7: `filterBatch` returns exactly the server-kind spans grouped under new
scope structures that carry the same scope token and reference the same span
values as the input; scope groups with no server span are omitted; the result
is `none` exactly when no span has kind server.  The Go function builds new
`ScopeSpans`/`ResourceSpans` structs and never writes through the input
pointers; in this pure embedding that is reflected by the output spans being
the very values found in the input lists. -/
theorem filterBatch_spec (batch r : ResourceSpans) :
    (filterBatch batch = some r →
      r.resource = batch.resource ∧
      r.scopeSpans = keptScopes batch ∧
      (∀ ss ∈ r.scopeSpans, ∀ s ∈ ss.spans, s.kind = SpanKind.server) ∧
      (∀ ss ∈ r.scopeSpans, ∃ ss₀ ∈ batch.scopeSpans,
        ss.scope = ss₀.scope ∧ ∀ s ∈ ss.spans, s ∈ ss₀.spans)) ∧
    (filterBatch batch = none ↔
      ∀ ss ∈ batch.scopeSpans, ∀ s ∈ ss.spans, s.kind ≠ SpanKind.server) := by
  refine ⟨?_, filterBatch_eq_none_iff batch⟩
  intro h
  rw [filterBatch_eq] at h
  by_cases hlen : (keptScopes batch).length > 0
  · rw [if_pos hlen] at h
    have hr := (Option.some_inj.mp h).symm
    subst hr
    refine ⟨rfl, rfl, ?_, ?_⟩
    · intro ss hss s hs
      simp only [keptScopes] at hss
      rcases List.mem_map.mp (List.mem_filter.mp hss).1 with ⟨ss₀, _, rfl⟩
      simp only [serverSpans] at hs
      have := (List.mem_filter.mp hs).2
      simpa using this
    · intro ss hss
      simp only [keptScopes] at hss
      rcases List.mem_map.mp (List.mem_filter.mp hss).1 with ⟨ss₀, hss₀, rfl⟩
      refine ⟨ss₀, hss₀, rfl, fun s hs => ?_⟩
      simp only [serverSpans] at hs
      exact (List.mem_filter.mp hs).1
  · rw [if_neg hlen] at h
    exact absurd h (Option.noConfusion)

/-- A concrete batch used to exercise `filterBatch`: one scope with a client
and a server span, one scope with only a client span. -/
def exampleBatch : ResourceSpans :=
  ResourceSpans.mk 7
    [ScopeSpans.mk 3 [Span.mk [1] SpanKind.client, Span.mk [1] SpanKind.server],
     ScopeSpans.mk 4 [Span.mk [2] SpanKind.client]]

/-- The batch `filterBatch` produces from `exampleBatch`. -/
def exampleBatchOut : ResourceSpans :=
  ResourceSpans.mk 7 [ScopeSpans.mk 3 [Span.mk [1] SpanKind.server]]

theorem filterBatch_spec_witness :
    filterBatch exampleBatch = some exampleBatchOut ∧
    exampleBatchOut.resource = exampleBatch.resource ∧
    (∀ ss ∈ exampleBatchOut.scopeSpans, ∀ s ∈ ss.spans, s.kind = SpanKind.server) := by
  have h := (filterBatch_spec exampleBatch exampleBatchOut).1 (by decide)
  exact ⟨by decide, h.1, h.2.2.1⟩

/-! ## Association lists, modelling Go maps -/

/-- Lookup in an association list (Go `m[k]`). -/
def lookupKey {κ α : Type} [DecidableEq κ] (k : κ) : List (κ × α) → Option α
  | [] => none
  | (k', v) :: rest => if k' = k then some v else lookupKey k rest

/-- The keys of an association list. -/
def keysOf {κ α : Type} (m : List (κ × α)) : List κ := m.map Prod.fst

/-- Go map assignment `m[k] = v`: replace the binding in place if the key is
present, otherwise add a new binding. -/
def mapInsert {κ α : Type} [DecidableEq κ] (k : κ) (v : α) : List (κ × α) → List (κ × α)
  | [] => [(k, v)]
  | (k', v') :: rest => if k' = k then (k, v) :: rest else (k', v') :: mapInsert k v rest

/-- Go map deletion `delete(m, k)`. -/
def mapErase {κ α : Type} [DecidableEq κ] (k : κ) : List (κ × α) → List (κ × α)
  | [] => []
  | (k', v') :: rest => if k' = k then rest else (k', v') :: mapErase k rest

/-! ## Live trace buffer (live_traces.go, not in the provided sources) -/

/-- A live trace: identifier, accumulated batches, last-write timestamp. -/
structure LiveTrace where
  id : List Nat
  batches : List ResourceSpans
  timestamp : Int
  deriving DecidableEq, Repr

/-- The live trace buffer: a map from trace identifier to live trace. -/
structure LiveTraces where
  traces : List (List Nat × LiveTrace)
  deriving DecidableEq, Repr

/-- The buffer-full error `errMaxExceeded`. -/
inductive PushError where
  | maxExceeded
  deriving DecidableEq, Repr

/-- Modelled from the spec: `live_traces.go` is not in the provided sources;
the spec says the trace identifier is "extracted from the batch".  We take the
identifier of the batch's first span. -/
def extractTraceID (b : ResourceSpans) : List Nat :=
  match b.scopeSpans with
  | [] => []
  | ss :: _ =>
    match ss.spans with
    | [] => []
    | s :: _ => s.traceId

/-- `liveTraces.Len()`: number of distinct identifiers in the buffer. -/
def LiveTraces.Len (lt : LiveTraces) : Nat := lt.traces.length

/-- Modelled from the spec: `liveTraces.Push` (live_traces.go is not in the
provided sources).  Look up the identifier extracted from the batch; if found,
append the batch and refresh the timestamp (always succeeds); if not found and
the buffer already holds at least `max` distinct identifiers, fail with
`errMaxExceeded` creating no entry; otherwise create a new entry. -/
def LiveTraces.Push (lt : LiveTraces) (now : Int) (batch : ResourceSpans)
    (max : Nat) : Except PushError LiveTraces :=
  let id := extractTraceID batch
  match lookupKey id lt.traces with
  | some t =>
      Except.ok ⟨mapInsert id (LiveTrace.mk id (t.batches ++ [batch]) now) lt.traces⟩
  | none =>
      if lt.traces.length ≥ max then Except.error PushError.maxExceeded
      else Except.ok ⟨(id, LiveTrace.mk id [batch] now) :: lt.traces⟩

/-- Modelled from the spec: `liveTraces.CutIdle(since)` (live_traces.go is not
in the provided sources).  Atomically remove and return every entry whose
last-write timestamp is strictly older than the cutoff; a cutoff of `none`
models the zero instant `time.Time{}`, for which every entry qualifies.
Unselected entries remain untouched. -/
def LiveTraces.CutIdle (lt : LiveTraces) (since : Option Int) :
    List LiveTrace × LiveTraces :=
  let qual := fun (p : List Nat × LiveTrace) =>
    match since with
    | none => true
    | some c => decide (p.2.timestamp < c)
  ((lt.traces.filter qual).map Prod.snd, ⟨lt.traces.filter (fun p => !qual p)⟩)

/-! ## Processor state (processor.go lines 25-40) -/

/-- The configuration values the processor consults (localblocks `Config`). -/
structure Config where
  maxLiveTraces : Nat
  maxBlockDuration : Int
  maxBlockBytes : Nat
  traceIdlePeriod : Int
  completeBlockTimeout : Int
  deriving DecidableEq, Repr

/-- `common.BlockMeta`: the metadata fields the processor reads. -/
structure BlockMeta where
  blockID : Nat
  tenantID : String
  endTime : Int
  size : Nat
  deriving DecidableEq, Repr

/-- `common.WALBlock` as seen through the contract the processor uses:
metadata, the sequence of appended record identifiers, the accumulated byte
count (`DataLength`), and whether all appended records have been flushed. -/
structure WALBlock where
  meta : BlockMeta
  records : List (List Nat)
  dataLen : Nat
  flushed : Bool
  deriving DecidableEq, Repr

/-- `common.BackendBlock` as seen through the contract: its metadata. -/
structure BackendBlock where
  meta : BlockMeta
  deriving DecidableEq, Repr

/-- Observable effects: storage calls, log records and counter increments. -/
inductive Event where
  | newBlock (id : Nat)
  | append (blockId : Nat) (traceId : List Nat)
  | flushHead (id : Nat)
  | createB (id : Nat)
  | openB (id : Nat)
  | clearB (id : Nat)
  | logErr
  | cDropped
  | cTotal (d : Int)
  deriving DecidableEq, Repr

/-- Outcomes of the external storage calls: `true` means the call succeeds.
Per-block outcomes are keyed by block identifier. -/
structure Env where
  newBlockOk : Bool
  appendOk : Nat → Bool
  flushOk : Nat → Bool
  iterOk : Nat → Bool
  createOk : Nat → Bool
  openOk : Nat → Bool
  clearOk : Nat → Bool
  clearBackendOk : Nat → Bool

/-- The all-success environment: every storage call succeeds. -/
def envAll : Env :=
  Env.mk true (fun _ => true) (fun _ => true) (fun _ => true)
    (fun _ => true) (fun _ => true) (fun _ => true) (fun _ => true)

/-- The `Processor` state (processor.go lines 25-40).  `nextID` is the source
of fresh block identifiers, modelling `uuid.New()`'s global uniqueness. -/
structure Processor where
  tenant : String
  cfg : Config
  headBlock : Option WALBlock
  walBlocks : List (Nat × WALBlock)
  completeBlocks : List (Nat × BackendBlock)
  lastCutTime : Int
  liveTraces : LiveTraces
  nextID : Nat
  deriving DecidableEq, Repr

/-- Result of one stateful operation: the new state, the effects emitted, and
`some msg` when the Go function returned a non-nil error. -/
structure StepRes where
  st : Processor
  evs : List Event
  err : Option String
  deriving DecidableEq, Repr

/-- A fresh, empty WAL block as `wal.NewBlock` returns it. -/
def freshWAL (id : Nat) (tenant : String) : WALBlock :=
  WALBlock.mk (BlockMeta.mk id tenant 0 0) [] 0 false

/-! ## PushSpans (processor.go lines 79-99) -/

/-- One iteration of the `PushSpans` loop body: filter the batch; if anything
survives, push it into the live trace buffer, counting a dropped trace when
the buffer is full.  `PushSpans` has no error return. -/
def pushBatch (p : Processor) (now : Int) (batch : ResourceSpans) :
    Processor × List Event :=
  match filterBatch batch with
  | none => (p, [])
  | some fb =>
    match p.liveTraces.Push now fb p.cfg.maxLiveTraces with
    | Except.error PushError.maxExceeded => (p, [Event.cDropped])
    | Except.ok lt' => ({ p with liveTraces := lt' }, [])

/-- The `PushSpans` loop over all batches of the request. -/
def pushList (p : Processor) (now : Int) : List ResourceSpans → Processor × List Event
  | [] => (p, [])
  | b :: bs =>
    let r₁ := pushBatch p now b
    let r₂ := pushList r₁.1 now bs
    (r₂.1, r₁.2 ++ r₂.2)

/-- `PushSpans` (processor.go lines 79-99): push every batch, then add the
size-after minus size-before delta to the total-traces counter. -/
def PushSpans (p : Processor) (now : Int) (batches : List ResourceSpans) :
    Processor × List Event :=
  let before := p.liveTraces.Len
  let r := pushList p now batches
  let after := r.1.liveTraces.Len
  (r.1, r.2 ++ [Event.cTotal ((after : Int) - (before : Int))])

/-! ## Byte-sequence comparison (`bytes.Compare`) and sorting by trace id -/

/-- Go's `bytes.Compare`: lexicographic comparison of byte sequences, a
strict prefix being smaller. -/
def bcmp : List Nat → List Nat → Ordering
  | [], [] => Ordering.eq
  | [], _ :: _ => Ordering.lt
  | _ :: _, [] => Ordering.gt
  | a :: as, b :: bs =>
    if a < b then Ordering.lt
    else if b < a then Ordering.gt
    else bcmp as bs

/-- Non-decreasing byte order on trace identifiers: `bytes.Compare` does not
say "greater". -/
def idLE (a b : List Nat) : Prop := bcmp a b ≠ Ordering.gt

instance : DecidableRel idLE := fun a b =>
  inferInstanceAs (Decidable (bcmp a b ≠ Ordering.gt))

/-- The ordering on cut traces used by `sort.Slice` in `cutIdleTraces`. -/
def traceLE (t u : LiveTrace) : Prop := idLE t.id u.id

instance : DecidableRel traceLE := fun t u =>
  inferInstanceAs (Decidable (idLE t.id u.id))

theorem bcmp_swap (a : List Nat) : ∀ b, bcmp b a = (bcmp a b).swap := by
  induction a with
  | nil => intro b; cases b <;> rfl
  | cons x as ih =>
    intro b
    cases b with
    | nil => rfl
    | cons y bs =>
      simp only [bcmp]
      rcases Nat.lt_trichotomy x y with h | h | h
      · simp [h, Nat.lt_asymm h, Ordering.swap]
      · subst h
        simp [Nat.lt_irrefl, ih bs]
      · simp [h, Nat.lt_asymm h, Ordering.swap]

instance : IsTotal (List Nat) idLE := by
  constructor
  intro a b
  unfold idLE
  by_cases h : bcmp a b = Ordering.gt
  · right
    rw [bcmp_swap a b] at *
    intro hc
    rw [h] at hc
    exact Ordering.noConfusion hc
  · left; exact h

theorem bcmp_trans (a : List Nat) :
    ∀ b c, bcmp a b ≠ Ordering.gt → bcmp b c ≠ Ordering.gt →
      bcmp a c ≠ Ordering.gt := by
  induction a with
  | nil =>
    intro b c _ _
    cases c <;> simp [bcmp]
  | cons x as ih =>
    intro b c hab hbc
    cases b with
    | nil => exact absurd rfl hab
    | cons y bs =>
      cases c with
      | nil => exact absurd rfl hbc
      | cons z cs =>
        simp only [bcmp] at hab hbc ⊢
        split_ifs at hab hbc ⊢ <;>
          first
            | exact ih bs cs hab hbc
            | (exfalso; omega)
            | (intro hc; exact Ordering.noConfusion hc)
            | exact absurd rfl hab
            | exact absurd rfl hbc

instance : IsTrans (List Nat) idLE :=
  ⟨fun a b c hab hbc => bcmp_trans a b c hab hbc⟩

instance : IsTotal LiveTrace traceLE :=
  ⟨fun t u => IsTotal.total (r := idLE) t.id u.id⟩

instance : IsTrans LiveTrace traceLE :=
  ⟨fun t u v htu huv => IsTrans.trans (r := idLE) t.id u.id v.id htu huv⟩

/-- `sort.Slice(tracesToCut, ...)` with `bytes.Compare(id_i, id_j) == -1`:
sorting the cut traces by identifier in ascending byte order. -/
def sortTraces (l : List LiveTrace) : List LiveTrace :=
  List.insertionSort traceLE l

/-! ## Head-block writes (processor.go lines 328-357) -/

/-- Modelled from the spec: the segment encoder (`model.SegmentDecoder`, not
in the provided sources) serializes one cut trace into a nonempty byte
payload; only its (positive) length is observable to the processor. -/
def encodedLen (t : LiveTrace) : Nat := t.id.length + 1

/-- `resetHeadBlock` (processor.go lines 349-357): allocate a fresh WAL block
(`wal.NewBlock(uuid.New(), ...)`), make it the head block, reset the cut
clock. -/
def resetHeadBlock (env : Env) (now : Int) (p : Processor) : StepRes :=
  if env.newBlockOk then
    StepRes.mk
      { p with headBlock := some (freshWAL p.nextID p.tenant),
               lastCutTime := now, nextID := p.nextID + 1 }
      [Event.newBlock p.nextID] none
  else StepRes.mk p [] (some "wal.NewBlock")

/-- The `headBlock.Append(id, b, now, now)` call at the end of
`writeHeadBlock`. -/
def appendToHead (env : Env) (now : Int) (id : List Nat) (payloadLen : Nat)
    (p : Processor) (pre : List Event) : StepRes :=
  match p.headBlock with
  | none => StepRes.mk p pre (some "no head block")
  | some hb =>
    if env.appendOk hb.meta.blockID then
      let meta' := BlockMeta.mk hb.meta.blockID hb.meta.tenantID now hb.meta.size
      let hb' := WALBlock.mk meta' (hb.records ++ [id]) (hb.dataLen + payloadLen) false
      StepRes.mk { p with headBlock := some hb' }
        (pre ++ [Event.append hb.meta.blockID id]) none
    else StepRes.mk p pre (some "append")

/-- `writeHeadBlock` (processor.go lines 328-347): lazily allocate the head
block, then append the record with the current time as both timestamps. -/
def writeHeadBlock (env : Env) (now : Int) (id : List Nat) (payloadLen : Nat)
    (p : Processor) : StepRes :=
  match p.headBlock with
  | none =>
    let r := resetHeadBlock env now p
    match r.err with
    | some e => StepRes.mk r.st r.evs (some e)
    | none => appendToHead env now id payloadLen r.st r.evs
  | some _ => appendToHead env now id payloadLen p []

/-- The `for _, t := range tracesToCut` loop of `cutIdleTraces`: write each
cut trace into the head block, stopping at the first error. -/
def writeAll (env : Env) (now : Int) : List LiveTrace → Processor → StepRes
  | [], p => StepRes.mk p [] none
  | t :: ts, p =>
    let r := writeHeadBlock env now t.id (encodedLen t) p
    match r.err with
    | some e => StepRes.mk r.st r.evs (some e)
    | none =>
      let r' := writeAll env now ts r.st
      StepRes.mk r'.st (r.evs ++ r'.evs) r'.err

/-- The body of `cutIdleTraces` for an already-computed cutoff: cut the
qualifying traces from the buffer, return early when none were cut,
otherwise sort them by identifier, write them into the head block, and
finally flush the head block. -/
def cutIdleTracesSince (env : Env) (since : Option Int) (now : Int)
    (p : Processor) : StepRes :=
  let cutRes := p.liveTraces.CutIdle since
  let p₀ := { p with liveTraces := cutRes.2 }
  if cutRes.1.isEmpty then StepRes.mk p₀ [] none
  else
    let r := writeAll env now (sortTraces cutRes.1) p₀
    match r.err with
    | some e => StepRes.mk r.st r.evs (some e)
    | none =>
      match r.st.headBlock with
      | none => StepRes.mk r.st r.evs (some "no head block")
      | some hb =>
        if env.flushOk hb.meta.blockID then
          StepRes.mk { r.st with headBlock := some { hb with flushed := true } }
            (r.evs ++ [Event.flushHead hb.meta.blockID]) none
        else StepRes.mk r.st r.evs (some "flush")

/-- `cutIdleTraces` (processor.go lines 274-326): the cutoff is now minus
`TraceIdlePeriod`, or the zero instant when `immediate`. -/
def cutIdleTraces (env : Env) (immediate : Bool) (now : Int) (p : Processor) :
    StepRes :=
  cutIdleTracesSince env
    (if immediate then none else some (now - p.cfg.traceIdlePeriod)) now p

/-! ## cutBlocks (processor.go lines 359-385) -/

/-- `cutBlocks(immediate)` (processor.go lines 359-385): no-op when there is
no head block or it is empty, or when (unless `immediate`) both the age and
size thresholds are unmet; otherwise flush the head block, move it into the
write-ahead set keyed by its identifier, and allocate a fresh head block. -/
def cutBlocks (env : Env) (immediate : Bool) (now : Int) (p : Processor) :
    StepRes :=
  match p.headBlock with
  | none => StepRes.mk p [] none
  | some hb =>
    if hb.dataLen = 0 then StepRes.mk p [] none
    else if !immediate
        && decide (now - p.lastCutTime < p.cfg.maxBlockDuration)
        && decide (hb.dataLen < p.cfg.maxBlockBytes) then
      StepRes.mk p [] none
    else if env.flushOk hb.meta.blockID then
      let hb' := { hb with flushed := true }
      let p₁ := { p with headBlock := some hb', walBlocks := mapInsert hb.meta.blockID hb' p.walBlocks }
      let r := resetHeadBlock env now p₁
      StepRes.mk r.st (Event.flushHead hb.meta.blockID :: r.evs) r.err
    else StepRes.mk p [] (some "failed to flush head block")

/-! ## completeBlock (processor.go lines 200-243) -/

/-- Modelled from the spec: `enc.CreateBlock` (tempodb/encoding, not in the
provided sources) compacts one write-ahead block into a backend-encoded
block; per the spec's lifecycle (head → write-ahead → complete, keyed by the
block identifier throughout) the produced metadata keeps the source block's
identity and end-time. -/
def createdMeta (meta : BlockMeta) : BlockMeta := meta

/-- `completeBlock` (processor.go lines 200-243): take at most one block from
the write-ahead set (arbitrary map iteration order, modelled as the list
head), compact it, open the result, register it in the complete set, clear
the source's storage and remove it from the write-ahead set; only one block
per call. -/
def completeBlock (env : Env) (p : Processor) : StepRes :=
  match p.walBlocks with
  | [] => StepRes.mk p [] none
  | (id, b) :: _rest =>
    if !env.iterOk id then StepRes.mk p [] (some "iterator") else
    if !env.createOk id then StepRes.mk p [] (some "CreateBlock") else
    let newMeta := createdMeta b.meta
    if !env.openOk newMeta.blockID then
      StepRes.mk p [Event.createB newMeta.blockID] (some "OpenBlock")
    else
      let p₁ := { p with completeBlocks := mapInsert newMeta.blockID (BackendBlock.mk newMeta) p.completeBlocks }
      if env.clearOk id then
        StepRes.mk { p₁ with walBlocks := mapErase id p₁.walBlocks }
          [Event.createB newMeta.blockID, Event.openB newMeta.blockID,
           Event.clearB id] none
      else
        StepRes.mk p₁
          [Event.createB newMeta.blockID, Event.openB newMeta.blockID]
          (some "Clear")

/-! ## deleteOldBlocks (processor.go lines 245-272) -/

/-- The `for id, b := range p.walBlocks` deletion loop: clear and drop every
block whose end-time is strictly before the cutoff, stopping at the first
clear failure (already-deleted entries stay deleted). -/
def delWalList (env : Env) (before : Int) :
    List (Nat × WALBlock) → List (Nat × WALBlock) × List Event × Option String
  | [] => ([], [], none)
  | (id, b) :: rest =>
    if b.meta.endTime < before then
      if env.clearOk id then
        let r := delWalList env before rest
        (r.1, Event.clearB id :: r.2.1, r.2.2)
      else ((id, b) :: rest, [], some "clear")
    else
      let r := delWalList env before rest
      ((id, b) :: r.1, r.2.1, r.2.2)

/-- The corresponding loop over the complete set, clearing through the local
backend (`ClearBlock(id, tenant)`). -/
def delCompleteList (env : Env) (before : Int) :
    List (Nat × BackendBlock) →
      List (Nat × BackendBlock) × List Event × Option String
  | [] => ([], [], none)
  | (id, b) :: rest =>
    if b.meta.endTime < before then
      if env.clearBackendOk id then
        let r := delCompleteList env before rest
        (r.1, Event.clearB id :: r.2.1, r.2.2)
      else ((id, b) :: rest, [], some "clearBlock")
    else
      let r := delCompleteList env before rest
      ((id, b) :: r.1, r.2.1, r.2.2)

/-- `deleteOldBlocks` (processor.go lines 245-272): for the write-ahead set
and the complete set independently, delete every block whose recorded
end-time is strictly older than now minus `CompleteBlockTimeout`. -/
def deleteOldBlocks (env : Env) (now : Int) (p : Processor) : StepRes :=
  let before := now - p.cfg.completeBlockTimeout
  let rw := delWalList env before p.walBlocks
  match rw.2.2 with
  | some e => StepRes.mk { p with walBlocks := rw.1 } rw.2.1 (some e)
  | none =>
    let rc := delCompleteList env before p.completeBlocks
    StepRes.mk { p with walBlocks := rw.1, completeBlocks := rc.1 }
      (rw.2.1 ++ rc.2.1) rc.2.2

/-! ## Recovery (processor.go lines 387-453) and construction (lines 44-73) -/

/-- Outcome of `reader.BlockMeta(ctx, id, tenant)`: metadata, the
`backend.ErrDoesNotExist` signature of a partially written block, or any
other error. -/
inductive MetaResult where
  | found (m : BlockMeta)
  | notFound
  | failed (e : String)

/-- Outcomes of the external calls made during recovery. -/
structure RecoveryEnv where
  rescan : Except String (List WALBlock)
  tenants : Except String (List String)
  blockIDs : Except String (List Nat)
  blockMeta : Nat → MetaResult
  clearOk : Nat → Bool
  openOk : Nat → Bool

/-- The `for _, id := range ids` loop of `reloadBlocks`: read each block's
metadata; when it does not exist, clear the partial block (logging, not
failing, if even that clear fails) and continue; any other metadata or open
failure is returned. -/
def reloadComplete (renv : RecoveryEnv) :
    List Nat → List (Nat × BackendBlock) × List Event × Option String
  | [] => ([], [], none)
  | id :: rest =>
    match renv.blockMeta id with
    | MetaResult.notFound =>
      let evs := if renv.clearOk id then [Event.clearB id] else [Event.logErr]
      let r := reloadComplete renv rest
      (r.1, evs ++ r.2.1, r.2.2)
    | MetaResult.failed e => ([], [], some e)
    | MetaResult.found m =>
      if renv.openOk id then
        let r := reloadComplete renv rest
        ((id, BackendBlock.mk m) :: r.1, Event.openB id :: r.2.1, r.2.2)
      else ([], [], some "OpenBlock")

/-- `reloadBlocks` (processor.go lines 387-453): rescan the WAL, keeping
blocks of this tenant; then, unless the backend has no tenants at all, list
this tenant's backend blocks and open each one, auto-remediating partially
written blocks.  Returns the recovered write-ahead and complete sets and the
effects, or the fatal error. -/
def reloadBlocks (renv : RecoveryEnv) (tenant : String) :
    Except String (List (Nat × WALBlock) × List (Nat × BackendBlock) × List Event) :=
  match renv.rescan with
  | Except.error e => Except.error e
  | Except.ok wals =>
    let walb := wals.foldl (fun m b =>
      if b.meta.tenantID = tenant then mapInsert b.meta.blockID b m else m) []
    match renv.tenants with
    | Except.error e => Except.error e
    | Except.ok tenants =>
      if tenants.isEmpty then Except.ok (walb, [], [])
      else
        match renv.blockIDs with
        | Except.error e => Except.error e
        | Except.ok ids =>
          let r := reloadComplete renv ids
          match r.2.2 with
          | some e => Except.error e
          | none => Except.ok (walb, r.1, r.2.1)

/-- Smallest `Nat` strictly above every element of the list. -/
def maxKeyPlus (l : List Nat) : Nat := l.foldr (fun a b => Nat.max (a + 1) b) 0

/-- `New` (processor.go lines 44-73): construct the processor, replaying
blocks first; a replay failure makes construction fail.  `nextID` starts
above every recovered identifier, modelling `uuid.New()` never colliding
with an existing identifier. -/
def New (cfg : Config) (tenant : String) (renv : RecoveryEnv) :
    Except String Processor :=
  match reloadBlocks renv tenant with
  | Except.error e => Except.error ("replaying blocks: " ++ e)
  | Except.ok r =>
    Except.ok (Processor.mk tenant cfg none r.1 r.2.1 0 (LiveTraces.mk [])
      (maxKeyPlus (keysOf r.1 ++ keysOf r.2.1)))

/-! ## Scheduler tick bodies (processor.go lines 117-180) and shutdown -/

/-- Append a log record when the operation failed (`level.Error(...).Log`). -/
def logged (r : StepRes) : StepRes :=
  match r.err with
  | some _ => StepRes.mk r.st (r.evs ++ [Event.logErr]) r.err
  | none => r

/-- One tick of `flushLoop` (lines 123-135): cut idle traces, logging any
failure, then cut blocks, logging any failure. -/
def flushTick (env : Env) (now : Int) (p : Processor) : Processor × List Event :=
  let r₁ := logged (cutIdleTraces env false now p)
  let r₂ := logged (cutBlocks env false now r₁.st)
  (r₂.st, r₁.evs ++ r₂.evs)

/-- One tick of `deleteLoop` (lines 148-155). -/
def deleteTick (env : Env) (now : Int) (p : Processor) : Processor × List Event :=
  let r := logged (deleteOldBlocks env now p)
  (r.st, r.evs)

/-- One tick of `completeLoop` (lines 168-175). -/
def completeTick (env : Env) (p : Processor) : Processor × List Event :=
  let r := logged (completeBlock env p)
  (r.st, r.evs)

/-- The final sequence of `Shutdown` (lines 101-115): immediate idle cut then
immediate block cut, each failure logged only. -/
def shutdownFinal (env : Env) (now : Int) (p : Processor) :
    Processor × List Event :=
  let r₁ := logged (cutIdleTraces env true now p)
  let r₂ := logged (cutBlocks env true now r₁.st)
  (r₂.st, r₁.evs ++ r₂.evs)

/-! ## Association-list lemmas -/

theorem mapInsert_not_mem {κ α : Type} [DecidableEq κ] (k : κ) (v : α) :
    ∀ m : List (κ × α), k ∉ keysOf m → mapInsert k v m = m ++ [(k, v)] := by
  intro m
  induction m with
  | nil => intro _; rfl
  | cons q rest ih =>
    intro h
    obtain ⟨k', v'⟩ := q
    have hne : k' ≠ k := by
      intro hc
      exact h (by simp [keysOf, hc])
    simp only [mapInsert, if_neg hne, List.cons_append, List.cons.injEq, true_and]
    exact ih (by intro hc; exact h (by simp [keysOf] at hc ⊢; right; exact hc))

theorem keysOf_mapInsert_mem {κ α : Type} [DecidableEq κ] (k : κ) (v : α) :
    ∀ m : List (κ × α), k ∈ keysOf m → keysOf (mapInsert k v m) = keysOf m := by
  intro m
  induction m with
  | nil => intro h; exact absurd h (List.not_mem_nil _)
  | cons q rest ih =>
    intro h
    obtain ⟨k', v'⟩ := q
    by_cases hk : k' = k
    · subst hk
      simp [mapInsert, keysOf]
    · simp only [mapInsert, if_neg hk]
      have h2 : k ∈ keysOf rest := by
        simp [keysOf] at h ⊢
        rcases h with h | h
        · exact absurd h.symm hk
        · exact h
      have h3 := ih h2
      simp only [keysOf, List.map] at h3 ⊢
      rw [h3]

/-! ## C1: cutBlocks -/

/-- C1: `cutBlocks(immediate)` is a no-op (state unchanged, no effect, no new
identifier) when the head block is absent, when it has zero accumulated
bytes, or when `immediate` is false and both the age and size thresholds are
unmet; in every other case (when the storage calls succeed) it flushes the
head block, moves it into the write-ahead set keyed by its own identifier,
and installs a fresh empty head block whose identifier differs from the old
head's and from every write-ahead block's, with the cut clock reset to now.
`immediate = true` bypasses both thresholds. -/
theorem cutBlocks_spec (env : Env) (immediate : Bool) (now : Int) (p : Processor) :
    (p.headBlock = none → cutBlocks env immediate now p = StepRes.mk p [] none) ∧
    (∀ hb, p.headBlock = some hb → hb.dataLen = 0 →
      cutBlocks env immediate now p = StepRes.mk p [] none) ∧
    (∀ hb, p.headBlock = some hb → immediate = false →
      now - p.lastCutTime < p.cfg.maxBlockDuration →
      hb.dataLen < p.cfg.maxBlockBytes →
      cutBlocks env immediate now p = StepRes.mk p [] none) ∧
    (∀ hb, p.headBlock = some hb → hb.dataLen ≠ 0 →
      (immediate = true ∨ p.cfg.maxBlockDuration ≤ now - p.lastCutTime ∨
        p.cfg.maxBlockBytes ≤ hb.dataLen) →
      env.flushOk hb.meta.blockID = true → env.newBlockOk = true →
      (∀ k ∈ keysOf p.walBlocks, k < p.nextID) → hb.meta.blockID < p.nextID →
      cutBlocks env immediate now p = StepRes.mk
          { p with headBlock := some (freshWAL p.nextID p.tenant),
                   walBlocks := mapInsert hb.meta.blockID { hb with flushed := true } p.walBlocks,
                   lastCutTime := now,
                   nextID := p.nextID + 1 }
          [Event.flushHead hb.meta.blockID, Event.newBlock p.nextID] none ∧
        p.nextID ≠ hb.meta.blockID ∧ p.nextID ∉ keysOf p.walBlocks) := by
  refine ⟨?_, ?_, ?_, ?_⟩
  · intro h
    unfold cutBlocks
    rw [h]
  · intro hb h hlen
    unfold cutBlocks
    rw [h]
    simp [hlen]
  · intro hb h himm hage hsize
    unfold cutBlocks
    rw [h, himm]
    by_cases hz : hb.dataLen = 0
    · simp [hz]
    · simp [hz, hage, hsize]
  · intro hb h hlen hthr hflush hnew hkeys hhid
    have hcond : (!immediate
        && decide (now - p.lastCutTime < p.cfg.maxBlockDuration)
        && decide (hb.dataLen < p.cfg.maxBlockBytes)) = false := by
      rcases hthr with h1 | h1 | h1
      · rw [h1]; rfl
      · have h2 : decide (now - p.lastCutTime < p.cfg.maxBlockDuration) = false := by
          simp [Int.not_lt.mpr h1]
        rw [h2]
        simp
      · have h2 : decide (hb.dataLen < p.cfg.maxBlockBytes) = false := by
          simp [Nat.not_lt.mpr h1]
        rw [h2]
        simp
    refine ⟨?_, ?_, ?_⟩
    · unfold cutBlocks
      rw [h]
      simp only [if_neg hlen, hcond, Bool.false_eq_true, if_false, hflush,
        if_true, resetHeadBlock, hnew]
    · intro hc
      rw [hc] at hhid
      exact Nat.lt_irrefl _ hhid
    · intro hc
      exact Nat.lt_irrefl _ (hkeys _ hc)

/-- Sample configuration: `MaxBlockBytes = 5`. -/
def cutCfg : Config := Config.mk 10 100 5 30 3600

/-- Sample head block holding one record of 10 bytes (over `MaxBlockBytes`). -/
def cutHB : WALBlock := WALBlock.mk (BlockMeta.mk 2 "t" 0 0) [[1]] 10 false

/-- Sample processor about to cut its head block. -/
def cutP : Processor :=
  Processor.mk "t" cutCfg (some cutHB) [] [] 0 (LiveTraces.mk []) 5

theorem cutBlocks_spec_witness :
    cutBlocks envAll false 50 cutP = StepRes.mk
      { cutP with headBlock := some (freshWAL 5 "t"), walBlocks := mapInsert 2 { cutHB with flushed := true } cutP.walBlocks, lastCutTime := 50, nextID := 6 }
      [Event.flushHead 2, Event.newBlock 5] none ∧ (5 : Nat) ≠ 2 := by
  have h := (cutBlocks_spec envAll false 50 cutP).2.2.2 cutHB rfl (by decide)
    (Or.inr (Or.inr (by decide))) rfl rfl (by decide) (by decide)
  exact ⟨h.1, h.2.1⟩

/-! ## C2: completeBlock -/

/-- C2: `completeBlock` does nothing (successfully) when the write-ahead set
is empty; otherwise (when the storage calls succeed) it compacts exactly the
one block it encounters first: it creates and opens one new encoded block,
registers it in the complete set, clears the source's storage and removes
the source from the write-ahead set, leaving every other write-ahead block
untouched, and returns without examining them. -/
theorem completeBlock_spec (env : Env) (p : Processor) :
    (p.walBlocks = [] → completeBlock env p = StepRes.mk p [] none) ∧
    (∀ id b rest, p.walBlocks = (id, b) :: rest →
      env.iterOk id = true → env.createOk id = true →
      env.openOk b.meta.blockID = true → env.clearOk id = true →
      completeBlock env p = StepRes.mk
        { p with walBlocks := rest, completeBlocks := mapInsert b.meta.blockID (BackendBlock.mk b.meta) p.completeBlocks }
        [Event.createB b.meta.blockID, Event.openB b.meta.blockID, Event.clearB id]
        none) := by
  constructor
  · intro h
    unfold completeBlock
    rw [h]
  · intro id b rest hwal hiter hcreate hopen hclear
    unfold completeBlock
    rw [hwal]
    simp only [hiter, hcreate, createdMeta, hopen, hclear, Bool.not_true,
      Bool.false_eq_true, if_false, if_true, mapErase, if_pos rfl]

/-- Sample write-ahead block for the `completeBlock` witness. -/
def compWB : WALBlock := WALBlock.mk (BlockMeta.mk 3 "t" 10 4) [[9]] 4 true

/-- Sample processor with two write-ahead blocks pending compaction. -/
def compP : Processor :=
  Processor.mk "t" cutCfg none
    [(3, compWB), (8, WALBlock.mk (BlockMeta.mk 8 "t" 11 6) [[5]] 6 true)]
    [] 0 (LiveTraces.mk []) 20

theorem completeBlock_spec_witness :
    completeBlock envAll compP = StepRes.mk
      { compP with walBlocks := [(8, WALBlock.mk (BlockMeta.mk 8 "t" 11 6) [[5]] 6 true)], completeBlocks := [(3, BackendBlock.mk (BlockMeta.mk 3 "t" 10 4))] }
      [Event.createB 3, Event.openB 3, Event.clearB 3] none :=
  (completeBlock_spec envAll compP).2 3 compWB
    [(8, WALBlock.mk (BlockMeta.mk 8 "t" 11 6) [[5]] 6 true)] rfl rfl rfl rfl rfl

/-! ## C4: deleteOldBlocks -/

theorem delWalList_ok (env : Env) (before : Int)
    (h : ∀ id, env.clearOk id = true) :
    ∀ m, delWalList env before m =
      (m.filter (fun q => !decide (q.2.meta.endTime < before)),
       (m.filter (fun q => decide (q.2.meta.endTime < before))).map
         (fun q => Event.clearB q.1),
       none) := by
  intro m
  induction m with
  | nil => rfl
  | cons q rest ih =>
    obtain ⟨id, b⟩ := q
    by_cases hold : b.meta.endTime < before
    · simp only [delWalList, if_pos hold, h id, if_true, ih, List.filter_cons,
        decide_eq_true hold, Bool.not_true, Bool.false_eq_true, if_false,
        List.map, if_true]
    · simp only [delWalList, if_neg hold, ih, List.filter_cons,
        decide_eq_false hold, Bool.not_false, Bool.false_eq_true, if_false,
        if_true]

theorem delCompleteList_ok (env : Env) (before : Int)
    (h : ∀ id, env.clearBackendOk id = true) :
    ∀ m, delCompleteList env before m =
      (m.filter (fun q => !decide (q.2.meta.endTime < before)),
       (m.filter (fun q => decide (q.2.meta.endTime < before))).map
         (fun q => Event.clearB q.1),
       none) := by
  intro m
  induction m with
  | nil => rfl
  | cons q rest ih =>
    obtain ⟨id, b⟩ := q
    by_cases hold : b.meta.endTime < before
    · simp only [delCompleteList, if_pos hold, h id, if_true, ih,
        List.filter_cons, decide_eq_true hold, Bool.not_true,
        Bool.false_eq_true, if_false, List.map, if_true]
    · simp only [delCompleteList, if_neg hold, ih, List.filter_cons,
        decide_eq_false hold, Bool.not_false, Bool.false_eq_true, if_false,
        if_true]

/-- C4: when the clears succeed, `deleteOldBlocks` removes from the
write-ahead set and the complete set independently exactly those blocks whose
recorded end-time is strictly older than now minus `CompleteBlockTimeout`,
clearing each removed block's storage (one `clearB` event per removed block),
and keeps every other block in its set. -/
theorem deleteOldBlocks_spec (env : Env) (now : Int) (p : Processor)
    (hw : ∀ id, env.clearOk id = true)
    (hc : ∀ id, env.clearBackendOk id = true) :
    deleteOldBlocks env now p = StepRes.mk
      { p with
          walBlocks := p.walBlocks.filter
            (fun q => !decide (q.2.meta.endTime < now - p.cfg.completeBlockTimeout)),
          completeBlocks := p.completeBlocks.filter
            (fun q => !decide (q.2.meta.endTime < now - p.cfg.completeBlockTimeout)) }
      ((p.walBlocks.filter
          (fun q => decide (q.2.meta.endTime < now - p.cfg.completeBlockTimeout))).map
          (fun q => Event.clearB q.1) ++
        (p.completeBlocks.filter
          (fun q => decide (q.2.meta.endTime < now - p.cfg.completeBlockTimeout))).map
          (fun q => Event.clearB q.1))
      none := by
  unfold deleteOldBlocks
  simp only [delWalList_ok env _ hw, delCompleteList_ok env _ hc]

/-- Sample processor for the `deleteOldBlocks` witness: one old and one new
block in each set (`CompleteBlockTimeout = 3600`, now = 5000, cutoff 1400). -/
def delP : Processor :=
  Processor.mk "t" cutCfg none
    [(1, WALBlock.mk (BlockMeta.mk 1 "t" 1000 4) [] 4 true),
     (2, WALBlock.mk (BlockMeta.mk 2 "t" 2000 4) [] 4 true)]
    [(3, BackendBlock.mk (BlockMeta.mk 3 "t" 1399 9)),
     (4, BackendBlock.mk (BlockMeta.mk 4 "t" 1400 9))]
    0 (LiveTraces.mk []) 10

theorem deleteOldBlocks_spec_witness :
    deleteOldBlocks envAll 5000 delP = StepRes.mk
      { delP with
          walBlocks := [(2, WALBlock.mk (BlockMeta.mk 2 "t" 2000 4) [] 4 true)],
          completeBlocks := [(4, BackendBlock.mk (BlockMeta.mk 4 "t" 1400 9))] }
      [Event.clearB 1, Event.clearB 3] none := by
  have h := deleteOldBlocks_spec envAll 5000 delP (fun _ => rfl) (fun _ => rfl)
  rw [h]
  rfl

/-! ## C3: PushSpans admission control and counters -/

theorem lookupKey_mem_keys {κ α : Type} [DecidableEq κ] (k : κ) :
    ∀ (m : List (κ × α)) (v : α), lookupKey k m = some v → k ∈ keysOf m := by
  intro m
  induction m with
  | nil => intro v h; exact absurd h (by simp [lookupKey])
  | cons q rest ih =>
    intro v h
    obtain ⟨k', v'⟩ := q
    by_cases hk : k' = k
    · subst hk; simp [keysOf]
    · simp only [lookupKey, if_neg hk] at h
      simp only [keysOf, List.map, List.mem_cons]
      right
      exact ih v h

theorem mapInsert_length {κ α : Type} [DecidableEq κ] (k : κ) (v : α) :
    ∀ m : List (κ × α), k ∈ keysOf m → (mapInsert k v m).length = m.length := by
  intro m
  induction m with
  | nil => intro h; exact absurd h (List.not_mem_nil _)
  | cons q rest ih =>
    intro h
    obtain ⟨k', v'⟩ := q
    by_cases hk : k' = k
    · simp [mapInsert, if_pos hk]
    · simp only [mapInsert, if_neg hk, List.length_cons]
      have h2 : k ∈ keysOf rest := by
        simp [keysOf] at h ⊢
        rcases h with h | h
        · exact absurd h.symm hk
        · exact h
      rw [ih h2]

theorem lookupKey_mapInsert {κ α : Type} [DecidableEq κ] (k : κ) (v : α) :
    ∀ m : List (κ × α), lookupKey k (mapInsert k v m) = some v := by
  intro m
  induction m with
  | nil => simp [mapInsert, lookupKey]
  | cons q rest ih =>
    obtain ⟨k', v'⟩ := q
    by_cases hk : k' = k
    · simp [mapInsert, if_pos hk, lookupKey]
    · simp only [mapInsert, if_neg hk, lookupKey, ih]

theorem pushBatch_len_mono (p : Processor) (now : Int) (b : ResourceSpans) :
    p.liveTraces.Len ≤ (pushBatch p now b).1.liveTraces.Len := by
  unfold pushBatch
  cases hf : filterBatch b with
  | none => exact Nat.le_refl _
  | some fb =>
    simp only [LiveTraces.Push]
    cases hl : lookupKey (extractTraceID fb) p.liveTraces.traces with
    | some t =>
      simp only [LiveTraces.Len]
      have := mapInsert_length (extractTraceID fb)
        (LiveTrace.mk (extractTraceID fb) (t.batches ++ [fb]) now)
        p.liveTraces.traces (lookupKey_mem_keys _ _ _ hl)
      rw [this]
    | none =>
      by_cases hfull : p.liveTraces.traces.length ≥ p.cfg.maxLiveTraces
      · simp only [if_pos hfull]
        exact Nat.le_refl _
      · simp only [if_neg hfull, LiveTraces.Len, List.length_cons]
        exact Nat.le_succ _

theorem pushList_len_mono (now : Int) :
    ∀ (batches : List ResourceSpans) (p : Processor),
      p.liveTraces.Len ≤ (pushList p now batches).1.liveTraces.Len := by
  intro batches
  induction batches with
  | nil => intro p; exact Nat.le_refl _
  | cons b bs ih =>
    intro p
    exact Nat.le_trans (pushBatch_len_mono p now b) (ih (pushBatch p now b).1)

/-- C3: pushing a batch whose extracted identifier is not in the buffer while
the buffer already holds `MaxLiveTraces` identifiers creates no entry and
emits exactly one dropped-trace increment (and `PushSpans` surfaces no error
to the caller — its result carries no error channel, matching the Go `void`
return); a push for an identifier already present always succeeds, keeping
the buffer size and extending that trace's batches; and the total-traces
counter receives exactly the size-after minus size-before delta, which is
never negative. -/
theorem pushSpans_spec (p : Processor) (now : Int) :
    (∀ b fb, filterBatch b = some fb →
      lookupKey (extractTraceID fb) p.liveTraces.traces = none →
      p.liveTraces.Len = p.cfg.maxLiveTraces →
      pushBatch p now b = (p, [Event.cDropped])) ∧
    (∀ b fb t, filterBatch b = some fb →
      lookupKey (extractTraceID fb) p.liveTraces.traces = some t →
      (pushBatch p now b).2 = [] ∧
      (pushBatch p now b).1.liveTraces.Len = p.liveTraces.Len ∧
      lookupKey (extractTraceID fb) (pushBatch p now b).1.liveTraces.traces =
        some (LiveTrace.mk (extractTraceID fb) (t.batches ++ [fb]) now)) ∧
    (∀ batches,
      PushSpans p now batches =
        ((pushList p now batches).1,
         (pushList p now batches).2 ++
           [Event.cTotal (((pushList p now batches).1.liveTraces.Len : Int) -
             (p.liveTraces.Len : Int))]) ∧
      p.liveTraces.Len ≤ (pushList p now batches).1.liveTraces.Len) := by
  refine ⟨?_, ?_, ?_⟩
  · intro b fb hf hnot hfull
    unfold pushBatch
    rw [hf]
    simp only [LiveTraces.Push, hnot]
    have hge : p.liveTraces.traces.length ≥ p.cfg.maxLiveTraces := by
      have : p.liveTraces.traces.length = p.cfg.maxLiveTraces := hfull
      exact Nat.le_of_eq this.symm
    rw [if_pos hge]
  · intro b fb t hf hsome
    unfold pushBatch
    rw [hf]
    simp only [LiveTraces.Push, hsome]
    refine ⟨by trivial, ?_, ?_⟩
    · simp only [LiveTraces.Len]
      exact mapInsert_length _ _ _ (lookupKey_mem_keys _ _ _ hsome)
    · exact lookupKey_mapInsert _ _ _
  · intro batches
    exact ⟨rfl, pushList_len_mono now batches p⟩

/-- A buffer already holding one live trace, with `MaxLiveTraces = 1`. -/
def pushP : Processor :=
  Processor.mk "t" (Config.mk 1 100 5 30 3600) none [] [] 0
    (LiveTraces.mk [([1], LiveTrace.mk [1] [] 0)]) 0

/-- A batch for a new trace identifier `[2]`, all spans server-kind. -/
def pushBatchNew : ResourceSpans :=
  ResourceSpans.mk 0 [ScopeSpans.mk 0 [Span.mk [2] SpanKind.server]]

theorem pushSpans_spec_witness :
    pushBatch pushP 5 pushBatchNew = (pushP, [Event.cDropped]) :=
  (pushSpans_spec pushP 5).1 pushBatchNew
    (ResourceSpans.mk 0 [ScopeSpans.mk 0 [Span.mk [2] SpanKind.server]])
    (by decide) (by decide) (by decide)

/-! ## C5: recovery failure handling -/

/-- A recovery environment in which the only listed backend block has no
metadata (a partially written block) and the remediation deletion fails. -/
def clearFailRenv : RecoveryEnv :=
  RecoveryEnv.mk (Except.ok []) (Except.ok ["t"]) (Except.ok [5])
    (fun _ => MetaResult.notFound) (fun _ => false) (fun _ => true)

/-- Counterexample to C5 as stated: when the metadata read returns not-found
and the remediation deletion itself fails, the code logs the failure and
continues (processor.go lines 433-437) — construction still succeeds, so the
remediation deletion is not one of the fatal failures. -/
theorem reload_clear_fail_not_fatal :
    reloadBlocks clearFailRenv "t" = Except.ok ([], [], [Event.logErr]) ∧
    New cutCfg "t" clearFailRenv =
      Except.ok (Processor.mk "t" cutCfg none [] [] 0 (LiveTraces.mk []) 0) :=
  ⟨rfl, rfl⟩

/-- C5 (amended): a metadata read returning not-found causes the partial
block to be deleted and skipped without failing startup — and if even that
remediation deletion fails, the failure is only logged and the block still
skipped; every other failure during recovery (WAL rescan, tenant listing,
block listing, metadata read, block open) is fatal: `reloadBlocks` and hence
`New` return the error. -/
theorem reloadBlocks_spec (renv : RecoveryEnv) (tenant : String) :
    (∀ id rest, renv.blockMeta id = MetaResult.notFound →
      (reloadComplete renv (id :: rest)).1 = (reloadComplete renv rest).1 ∧
      (reloadComplete renv (id :: rest)).2.2 = (reloadComplete renv rest).2.2 ∧
      (renv.clearOk id = false →
        Event.logErr ∈ (reloadComplete renv (id :: rest)).2.1)) ∧
    (∀ e cfg, renv.rescan = Except.error e →
      reloadBlocks renv tenant = Except.error e ∧
      New cfg tenant renv = Except.error ("replaying blocks: " ++ e)) ∧
    (∀ e wals, renv.rescan = Except.ok wals → renv.tenants = Except.error e →
      reloadBlocks renv tenant = Except.error e) ∧
    (∀ e wals ts, renv.rescan = Except.ok wals → renv.tenants = Except.ok ts →
      ts.isEmpty = false → renv.blockIDs = Except.error e →
      reloadBlocks renv tenant = Except.error e) ∧
    (∀ id rest e, renv.blockMeta id = MetaResult.failed e →
      reloadComplete renv (id :: rest) = ([], [], some e)) ∧
    (∀ id rest m, renv.blockMeta id = MetaResult.found m →
      renv.openOk id = false →
      reloadComplete renv (id :: rest) = ([], [], some "OpenBlock")) ∧
    (∀ e wals ts ids, renv.rescan = Except.ok wals →
      renv.tenants = Except.ok ts → ts.isEmpty = false →
      renv.blockIDs = Except.ok ids →
      (reloadComplete renv ids).2.2 = some e →
      reloadBlocks renv tenant = Except.error e) ∧
    (∀ e cfg, reloadBlocks renv tenant = Except.error e →
      New cfg tenant renv = Except.error ("replaying blocks: " ++ e)) := by
  refine ⟨?_, ?_, ?_, ?_, ?_, ?_, ?_, ?_⟩
  · intro id rest h
    simp only [reloadComplete, h]
    refine ⟨by trivial, by trivial, ?_⟩
    intro hc
    rw [hc]
    simp
  · intro e cfg h
    constructor
    · unfold reloadBlocks
      rw [h]
    · unfold New reloadBlocks
      rw [h]
  · intro e wals h1 h2
    unfold reloadBlocks
    rw [h1]
    simp only [h2]
  · intro e wals ts h1 h2 h3 h4
    unfold reloadBlocks
    rw [h1]
    simp only [h2, h3, Bool.false_eq_true, if_false, h4]
  · intro id rest e h
    simp only [reloadComplete, h]
  · intro id rest m h ho
    simp only [reloadComplete, h, ho, Bool.false_eq_true, if_false]
  · intro e wals ts ids h1 h2 h3 h4 h5
    unfold reloadBlocks
    rw [h1]
    simp only [h2, h3, Bool.false_eq_true, if_false, h4, h5]
  · intro e cfg h
    unfold New
    rw [h]

/-- A recovery environment whose WAL rescan fails outright. -/
def rescanFailRenv : RecoveryEnv :=
  RecoveryEnv.mk (Except.error "rescan failed") (Except.ok []) (Except.ok [])
    (fun _ => MetaResult.notFound) (fun _ => true) (fun _ => true)

theorem reloadBlocks_spec_witness :
    (reloadComplete clearFailRenv [5]).2.2 = (reloadComplete clearFailRenv []).2.2 ∧
    Event.logErr ∈ (reloadComplete clearFailRenv [5]).2.1 ∧
    New cutCfg "t" rescanFailRenv =
      Except.error ("replaying blocks: " ++ "rescan failed") := by
  have h1 := (reloadBlocks_spec clearFailRenv "t").1 5 [] rfl
  have h2 := ((reloadBlocks_spec rescanFailRenv "t").2.1 "rescan failed" cutCfg rfl).2
  exact ⟨h1.2.1, h1.2.2 rfl, h2⟩

/-! ## C8: records are written in non-decreasing identifier order -/

/-- The trace identifiers of the append effects, in emission order. -/
def appendIds : List Event → List (List Nat)
  | [] => []
  | Event.append _ tid :: rest => tid :: appendIds rest
  | Event.newBlock _ :: rest => appendIds rest
  | Event.flushHead _ :: rest => appendIds rest
  | Event.createB _ :: rest => appendIds rest
  | Event.openB _ :: rest => appendIds rest
  | Event.clearB _ :: rest => appendIds rest
  | Event.logErr :: rest => appendIds rest
  | Event.cDropped :: rest => appendIds rest
  | Event.cTotal _ :: rest => appendIds rest

theorem appendIds_append (l₁ l₂ : List Event) :
    appendIds (l₁ ++ l₂) = appendIds l₁ ++ appendIds l₂ := by
  induction l₁ with
  | nil => rfl
  | cons e rest ih =>
    cases e <;> simp only [List.cons_append, appendIds, List.append_eq, ih]

theorem appendIds_writeHeadBlock (env : Env) (now : Int) (id : List Nat)
    (l : Nat) (p : Processor) :
    ((writeHeadBlock env now id l p).err = none →
      appendIds (writeHeadBlock env now id l p).evs = [id]) ∧
    ((writeHeadBlock env now id l p).err ≠ none →
      appendIds (writeHeadBlock env now id l p).evs = []) := by
  unfold writeHeadBlock appendToHead resetHeadBlock
  cases hh : p.headBlock with
  | none =>
    by_cases hn : env.newBlockOk
    · simp only [hn, if_true]
      by_cases ha : env.appendOk (freshWAL p.nextID p.tenant).meta.blockID
      · simp [ha, appendIds, appendIds_append]
      · simp [ha, appendIds]
    · simp [hn, appendIds]
  | some hb =>
    by_cases ha : env.appendOk hb.meta.blockID
    · simp [ha, appendIds, appendIds_append]
    · simp [ha, appendIds]

theorem writeAll_appendIds_front (env : Env) (now : Int) :
    ∀ (ts : List LiveTrace) (p : Processor),
      appendIds (writeAll env now ts p).evs <+: ts.map (fun t => t.id) := by
  intro ts
  induction ts with
  | nil => intro p; exact List.nil_prefix
  | cons t rest ih =>
    intro p
    unfold writeAll
    cases he : (writeHeadBlock env now t.id (encodedLen t) p).err with
    | some e =>
      simp only []
      rw [he]
      simp only [appendIds]
      rw [(appendIds_writeHeadBlock env now t.id (encodedLen t) p).2 (by rw [he]; simp)]
      exact List.nil_prefix
    | none =>
      simp only []
      rw [he]
      simp only [appendIds_append]
      rw [(appendIds_writeHeadBlock env now t.id (encodedLen t) p).1 he]
      simp only [List.map, List.singleton_append]
      obtain ⟨u, hu⟩ := ih (writeHeadBlock env now t.id (encodedLen t) p).st
      exact ⟨u, by rw [List.cons_append, hu]⟩

theorem writeAll_sorted_appendIds (env : Env) (now : Int) (ts : List LiveTrace)
    (q : Processor) :
    List.Pairwise idLE (appendIds (writeAll env now (sortTraces ts) q).evs) := by
  have hs : List.Pairwise traceLE (sortTraces ts) :=
    List.sorted_insertionSort traceLE ts
  have hm : List.Pairwise idLE ((sortTraces ts).map (fun t => t.id)) :=
    List.pairwise_map.mpr hs
  exact List.Pairwise.sublist
    (writeAll_appendIds_front env now (sortTraces ts) q).sublist hm

/-- C8: in every invocation of `cutIdleTraces` (idle cut), the trace records
appended to the head block are appended in ascending `bytes.Compare` order of
their trace identifiers: the emitted append sequence is pairwise
non-decreasing.  (Selected entries are sorted before being written; even when
a write fails mid-loop the records appended so far are an in-order prefix.) -/
theorem cutIdleTracesSince_sorted (env : Env) (since : Option Int) (now : Int)
    (p : Processor) :
    List.Pairwise idLE (appendIds (cutIdleTracesSince env since now p).evs) := by
  unfold cutIdleTracesSince
  simp only []
  split
  · exact List.Pairwise.nil
  · split
    · dsimp only
      exact writeAll_sorted_appendIds env now _ _
    · split
      · dsimp only
        exact writeAll_sorted_appendIds env now _ _
      · split
        · dsimp only
          rw [appendIds_append]
          have h2 : ∀ i, appendIds [Event.flushHead i] = [] := fun _ => rfl
          rw [h2, List.append_nil]
          exact writeAll_sorted_appendIds env now _ _
        · dsimp only
          exact writeAll_sorted_appendIds env now _ _

/-- C8: in every invocation of `cutIdleTraces` (idle cut), whatever trace
records get appended to the head block are appended in ascending
`bytes.Compare` order of their trace identifiers: the emitted append
sequence is pairwise non-decreasing.  (Selected entries are sorted before
being written; even when a write fails mid-loop the records appended so far
are an in-order prefix.) -/
theorem cutIdleTraces_writes_sorted (env : Env) (immediate : Bool) (now : Int)
    (p : Processor) :
    List.Pairwise idLE (appendIds (cutIdleTraces env immediate now p).evs) := by
  unfold cutIdleTraces
  exact cutIdleTracesSince_sorted env _ now p

/-! ## C10: idle cuts are durable before returning -/

/-- The records currently in the head block (empty when no head block). -/
def headRecords (q : Processor) : List (List Nat) :=
  match q.headBlock with
  | none => []
  | some hb => hb.records

theorem writeHeadBlock_headRecords (env : Env) (now : Int) (id : List Nat)
    (l : Nat) (p : Processor)
    (h : (writeHeadBlock env now id l p).err = none) :
    headRecords (writeHeadBlock env now id l p).st = headRecords p ++ [id] := by
  unfold writeHeadBlock appendToHead resetHeadBlock at h ⊢
  cases hh : p.headBlock with
  | none =>
    rw [hh] at h
    dsimp only at h ⊢
    by_cases hn : env.newBlockOk
    · simp only [hn, if_true] at h ⊢
      by_cases ha : env.appendOk (freshWAL p.nextID p.tenant).meta.blockID
      · simp only [ha, if_true] at h ⊢
        simp [headRecords, freshWAL, hh]
      · simp [ha] at h
    · simp [hn] at h
  | some hb =>
    rw [hh] at h
    dsimp only at h ⊢
    by_cases ha : env.appendOk hb.meta.blockID
    · simp only [ha, if_true] at h ⊢
      simp [headRecords, hh]
    · simp [ha] at h

theorem writeAll_success_facts (env : Env) (now : Int) :
    ∀ (ts : List LiveTrace) (p : Processor),
      (writeAll env now ts p).err = none →
      appendIds (writeAll env now ts p).evs = ts.map (fun t => t.id) ∧
      headRecords (writeAll env now ts p).st = headRecords p ++ ts.map (fun t => t.id) := by
  intro ts
  induction ts with
  | nil =>
    intro p _
    exact ⟨rfl, by simp [writeAll]⟩
  | cons t rest ih =>
    intro p h
    unfold writeAll at h ⊢
    simp only [] at h ⊢
    cases he : (writeHeadBlock env now t.id (encodedLen t) p).err with
    | some e =>
      rw [he] at h
      exact absurd h (by simp)
    | none =>
      rw [he] at h
      dsimp only at h ⊢
      obtain ⟨ih1, ih2⟩ := ih (writeHeadBlock env now t.id (encodedLen t) p).st h
      constructor
      · rw [appendIds_append, ih1,
          (appendIds_writeHeadBlock env now t.id (encodedLen t) p).1 he]
        rfl
      · rw [ih2, writeHeadBlock_headRecords env now t.id (encodedLen t) p he]
        simp

theorem cutIdle_empty (lt : LiveTraces) (since : Option Int)
    (h : (lt.CutIdle since).1 = []) : (lt.CutIdle since).2 = lt := by
  unfold LiveTraces.CutIdle at h ⊢
  simp only [] at h ⊢
  have hf : lt.traces.filter (fun p =>
      match since with
      | none => true
      | some c => decide (p.2.timestamp < c)) = [] := List.map_eq_nil_iff.mp h
  have hall := List.filter_eq_nil_iff.mp hf
  have : lt.traces.filter (fun p => !(match since with
      | none => true
      | some c => decide (p.2.timestamp < c))) = lt.traces := by
    apply List.filter_eq_self.mpr
    intro a ha
    have := hall a ha
    simp only [Bool.not_eq_true] at this ⊢
    rw [this]
    rfl
  rw [this]

theorem mem_sortTraces_map (t : LiveTrace) (l : List LiveTrace) (h : t ∈ l) :
    t.id ∈ (sortTraces l).map (fun u => u.id) := by
  have hp : List.Perm (sortTraces l) l := List.perm_insertionSort traceLE l
  exact List.mem_map_of_mem _ (hp.symm.subset h)

theorem cutIdleTracesSince_durability (env : Env) (since : Option Int)
    (now : Int) (p : Processor) :
    ((p.liveTraces.CutIdle since).1.isEmpty = true →
      cutIdleTracesSince env since now p = StepRes.mk p [] none) ∧
    ((cutIdleTracesSince env since now p).err = none →
      (p.liveTraces.CutIdle since).1.isEmpty = false →
      ∃ hb, (cutIdleTracesSince env since now p).st.headBlock = some hb ∧
        hb.flushed = true ∧
        (∃ pre, (cutIdleTracesSince env since now p).evs =
            pre ++ [Event.flushHead hb.meta.blockID] ∧
          appendIds pre =
            (sortTraces (p.liveTraces.CutIdle since).1).map (fun t => t.id)) ∧
        (∀ t ∈ (p.liveTraces.CutIdle since).1, t.id ∈ hb.records)) := by
  constructor
  · intro h
    have hnil : (p.liveTraces.CutIdle since).1 = [] := List.isEmpty_iff.mp h
    have h2 := cutIdle_empty p.liveTraces since hnil
    unfold cutIdleTracesSince
    simp only [h, if_true, h2]
  · intro herr hne
    unfold cutIdleTracesSince at herr ⊢
    simp only [hne, Bool.false_eq_true, if_false] at herr ⊢
    cases hw : (writeAll env now (sortTraces (p.liveTraces.CutIdle since).1)
        { p with liveTraces := (p.liveTraces.CutIdle since).2 }).err with
    | some e =>
      rw [hw] at herr
      exact absurd herr (by simp)
    | none =>
      rw [hw] at herr
      dsimp only at herr ⊢
      cases hh : (writeAll env now (sortTraces (p.liveTraces.CutIdle since).1)
          { p with liveTraces := (p.liveTraces.CutIdle since).2 }).st.headBlock with
      | none =>
        rw [hh] at herr
        dsimp only at herr
        exact absurd herr (by simp)
      | some hb =>
        rw [hh] at herr
        dsimp only at herr ⊢
        by_cases hf : env.flushOk hb.meta.blockID
        · simp only [hf, if_true] at herr ⊢
          refine ⟨{ hb with flushed := true }, rfl, rfl, ⟨_, rfl, ?_⟩, ?_⟩
          · exact (writeAll_success_facts env now _ _ hw).1
          · intro t ht
            have hr := (writeAll_success_facts env now
              (sortTraces (p.liveTraces.CutIdle since).1)
              { p with liveTraces := (p.liveTraces.CutIdle since).2 } hw).2
            have : headRecords (writeAll env now
                (sortTraces (p.liveTraces.CutIdle since).1)
                { p with liveTraces := (p.liveTraces.CutIdle since).2 }).st =
                hb.records := by
              unfold headRecords
              rw [hh]
            rw [this] at hr
            show t.id ∈ hb.records
            rw [hr]
            apply List.mem_append_right
            exact mem_sortTraces_map t _ ht
        · simp only [hf, Bool.false_eq_true, if_false] at herr
          exact absurd herr (by simp)

/-- C10: `cutIdleTraces` with at least one cut trace, when it returns
successfully, has appended every cut trace's record to the head block and
then durably flushed it before returning: the final head block is in flushed
state, contains every cut identifier, and the effect sequence is exactly the
appends of all sorted cut records followed by one head-block flush.  When
zero traces qualify it returns success immediately, a complete no-op that
does not touch the head block. -/
theorem cutIdleTraces_durability (env : Env) (immediate : Bool) (now : Int)
    (p : Processor) :
    ((p.liveTraces.CutIdle (if immediate then none
        else some (now - p.cfg.traceIdlePeriod))).1.isEmpty = true →
      cutIdleTraces env immediate now p = StepRes.mk p [] none) ∧
    ((cutIdleTraces env immediate now p).err = none →
      (p.liveTraces.CutIdle (if immediate then none
        else some (now - p.cfg.traceIdlePeriod))).1.isEmpty = false →
      ∃ hb, (cutIdleTraces env immediate now p).st.headBlock = some hb ∧
        hb.flushed = true ∧
        (∃ pre, (cutIdleTraces env immediate now p).evs =
            pre ++ [Event.flushHead hb.meta.blockID] ∧
          appendIds pre =
            (sortTraces (p.liveTraces.CutIdle (if immediate then none
              else some (now - p.cfg.traceIdlePeriod))).1).map (fun t => t.id)) ∧
        (∀ t ∈ (p.liveTraces.CutIdle (if immediate then none
            else some (now - p.cfg.traceIdlePeriod))).1, t.id ∈ hb.records)) := by
  unfold cutIdleTraces
  exact cutIdleTracesSince_durability env _ now p

/-- Processor with a single live trace, used to exercise the idle cut. -/
def idleP : Processor :=
  Processor.mk "t" cutCfg none [] [] 0
    (LiveTraces.mk [([3], LiveTrace.mk [3] [] 0)]) 0

theorem cutIdleTraces_durability_witness :
    ∃ hb, (cutIdleTraces envAll true 100 idleP).st.headBlock = some hb ∧
      hb.flushed = true ∧
      (∃ pre, (cutIdleTraces envAll true 100 idleP).evs =
          pre ++ [Event.flushHead hb.meta.blockID] ∧
        appendIds pre =
          (sortTraces (idleP.liveTraces.CutIdle (if true then none
            else some (100 - idleP.cfg.traceIdlePeriod))).1).map (fun t => t.id)) ∧
      (∀ t ∈ (idleP.liveTraces.CutIdle (if true then none
          else some (100 - idleP.cfg.traceIdlePeriod))).1, t.id ∈ hb.records) :=
  (cutIdleTraces_durability envAll true 100 idleP).2 (by decide) (by decide)

/-! ## C6: block lifecycle invariants -/

/-- The identifier of the current head block, if any. -/
def headIdOf (p : Processor) : Option Nat :=
  p.headBlock.map (fun hb => hb.meta.blockID)

/-- The operations of the running engine (recovery happens once in `New`). -/
inductive OpC where
  | push (now : Int) (batches : List ResourceSpans)
  | cutIdle (immediate : Bool) (now : Int)
  | cutBlk (immediate : Bool) (now : Int)
  | complete
  | delOld (now : Int)

/-- Apply one operation, keeping the resulting state. -/
def applyOp (env : Env) (p : Processor) : OpC → Processor
  | OpC.push now bs => (PushSpans p now bs).1
  | OpC.cutIdle imm now => (cutIdleTraces env imm now p).st
  | OpC.cutBlk imm now => (cutBlocks env imm now p).st
  | OpC.complete => (completeBlock env p).st
  | OpC.delOld now => (deleteOldBlocks env now p).st

/-- The lifecycle stage of a block identifier in a state: 1 = head, 2 =
write-ahead, 3 = complete, 4 = deleted (an identifier below the allocation
counter that is in no collection), 0 = not yet allocated. -/
def stage (p : Processor) (id : Nat) : Nat :=
  if headIdOf p = some id then 1
  else if id ∈ keysOf p.walBlocks then 2
  else if id ∈ keysOf p.completeBlocks then 3
  else if id < p.nextID then 4
  else 0

/-- The forward lifecycle transitions: stay put, be born as the head block,
head → write-ahead, write-ahead → complete, or deletion from head,
write-ahead, or complete.  No backward step and no forward skip. -/
def allowed (s s' : Nat) : Prop :=
  s' = s ∨ (s = 0 ∧ s' = 1) ∨ (s = 1 ∧ s' = 2) ∨ (s = 2 ∧ s' = 3) ∨
    ((s = 1 ∨ s = 2 ∨ s = 3) ∧ s' = 4)

/-- State invariant of the block lifecycle: every tracked identifier is below
the allocation counter, the head block is in neither set, the write-ahead
and complete sets are disjoint and duplicate-free, and every map entry is
keyed by its own block identifier. -/
structure Inv (p : Processor) : Prop where
  walLt : ∀ k ∈ keysOf p.walBlocks, k < p.nextID
  compLt : ∀ k ∈ keysOf p.completeBlocks, k < p.nextID
  headLt : ∀ i, headIdOf p = some i → i < p.nextID
  headWal : ∀ i, headIdOf p = some i → i ∉ keysOf p.walBlocks
  headComp : ∀ i, headIdOf p = some i → i ∉ keysOf p.completeBlocks
  disj : ∀ k ∈ keysOf p.walBlocks, k ∉ keysOf p.completeBlocks
  walNodup : (keysOf p.walBlocks).Nodup
  compNodup : (keysOf p.completeBlocks).Nodup
  walKeys : ∀ q ∈ p.walBlocks, q.2.meta.blockID = q.1
  compKeys : ∀ q ∈ p.completeBlocks, q.2.meta.blockID = q.1

theorem keysOf_append {κ α : Type} (m₁ m₂ : List (κ × α)) :
    keysOf (m₁ ++ m₂) = keysOf m₁ ++ keysOf m₂ := by
  simp [keysOf]

/-- Shape lemma: an operation that leaves the head identifier, both sets and
the counter unchanged preserves the invariant and every stage. -/
theorem shape_same (p q : Processor) (h : Inv p)
    (h1 : headIdOf q = headIdOf p) (h2 : q.walBlocks = p.walBlocks)
    (h3 : q.completeBlocks = p.completeBlocks) (h4 : q.nextID = p.nextID) :
    Inv q ∧ ∀ id, allowed (stage p id) (stage q id) := by
  constructor
  · exact ⟨by rw [h2, h4]; exact h.walLt, by rw [h3, h4]; exact h.compLt,
      by rw [h1, h4]; exact h.headLt, by rw [h1, h2]; exact h.headWal,
      by rw [h1, h3]; exact h.headComp, by rw [h2, h3]; exact h.disj,
      by rw [h2]; exact h.walNodup, by rw [h3]; exact h.compNodup,
      by rw [h2]; exact h.walKeys, by rw [h3]; exact h.compKeys⟩
  · intro id
    left
    unfold stage
    rw [h1, h2, h3, h4]

/-- Shape lemma: lazily allocating the head block (no head before, fresh
head `p.nextID` after, counter bumped, sets unchanged). -/
theorem shape_alloc (p q : Processor) (h : Inv p)
    (hnone : headIdOf p = none)
    (h1 : headIdOf q = some p.nextID) (h2 : q.walBlocks = p.walBlocks)
    (h3 : q.completeBlocks = p.completeBlocks) (h4 : q.nextID = p.nextID + 1) :
    Inv q ∧ ∀ id, allowed (stage p id) (stage q id) := by
  constructor
  · refine ⟨?_, ?_, ?_, ?_, ?_, ?_, ?_, ?_, ?_, ?_⟩
    · rw [h2, h4]; exact fun k hk => Nat.lt_succ_of_lt (h.walLt k hk)
    · rw [h3, h4]; exact fun k hk => Nat.lt_succ_of_lt (h.compLt k hk)
    · rw [h1, h4]
      intro i hi
      cases hi
      exact Nat.lt_succ_self _
    · rw [h1, h2]
      intro i hi
      cases hi
      intro hc
      exact Nat.lt_irrefl _ (h.walLt _ hc)
    · rw [h1, h3]
      intro i hi
      cases hi
      intro hc
      exact Nat.lt_irrefl _ (h.compLt _ hc)
    · rw [h2, h3]; exact h.disj
    · rw [h2]; exact h.walNodup
    · rw [h3]; exact h.compNodup
    · rw [h2]; exact h.walKeys
    · rw [h3]; exact h.compKeys
  · intro i
    unfold stage
    rw [h1, h2, h3, h4, hnone]
    by_cases hid : i = p.nextID
    · subst hid
      have hw : p.nextID ∉ keysOf p.walBlocks :=
        fun hcc => Nat.lt_irrefl _ (h.walLt _ hcc)
      have hcx : p.nextID ∉ keysOf p.completeBlocks :=
        fun hcc => Nat.lt_irrefl _ (h.compLt _ hcc)
      have hne0 : ¬((none : Option Nat) = some p.nextID) := by simp
      simp only [if_pos rfl, if_neg hne0, if_neg hw, if_neg hcx,
        if_neg (Nat.lt_irrefl p.nextID)]
      right; left
      exact ⟨rfl, rfl⟩
    · have hne : ¬(some p.nextID = some i) := fun hc =>
        hid (Option.some_inj.mp hc).symm
      have hne0 : ¬((none : Option Nat) = some i) := by simp
      rw [if_neg hne, if_neg hne0]
      have harith : i < p.nextID + 1 ↔ i < p.nextID := by
        constructor
        · intro hlt
          rcases Nat.lt_succ_iff_lt_or_eq.mp hlt with hlt' | heq
          · exact hlt'
          · exact absurd heq hid
        · exact Nat.lt_succ_of_lt
      by_cases hw : i ∈ keysOf p.walBlocks
      · left; simp [hw]
      · by_cases hcm : i ∈ keysOf p.completeBlocks
        · left; simp [hw, hcm]
        · by_cases hlt : i < p.nextID
          · left; simp [hw, hcm, hlt, harith.mpr hlt]
          · left
            simp only [if_neg hw, if_neg hcm, if_neg hlt,
              if_neg (fun hc => hlt (harith.mp hc))]

theorem stage_congr (p q : Processor) (j : Nat)
    (hh : (headIdOf q = some j) ↔ (headIdOf p = some j))
    (hw : (j ∈ keysOf q.walBlocks) ↔ (j ∈ keysOf p.walBlocks))
    (hc : (j ∈ keysOf q.completeBlocks) ↔ (j ∈ keysOf p.completeBlocks))
    (hn : (j < q.nextID) ↔ (j < p.nextID)) : stage q j = stage p j := by
  unfold stage
  by_cases a1 : headIdOf p = some j
  · rw [if_pos a1, if_pos (hh.mpr a1)]
  · rw [if_neg a1, if_neg (fun x => a1 (hh.mp x))]
    by_cases a2 : j ∈ keysOf p.walBlocks
    · rw [if_pos a2, if_pos (hw.mpr a2)]
    · rw [if_neg a2, if_neg (fun x => a2 (hw.mp x))]
      by_cases a3 : j ∈ keysOf p.completeBlocks
      · rw [if_pos a3, if_pos (hc.mpr a3)]
      · rw [if_neg a3, if_neg (fun x => a3 (hc.mp x))]
        by_cases a4 : j < p.nextID
        · rw [if_pos a4, if_pos (hn.mpr a4)]
        · rw [if_neg a4, if_neg (fun x => a4 (hn.mp x))]

/-- Shape lemma: cutting the head block — the head block (identifier `i`)
moves into the write-ahead set, a fresh head `p.nextID` is allocated, the
counter is bumped, the complete set is unchanged. -/
theorem shape_cut (p q : Processor) (hb' : WALBlock) (i : Nat) (h : Inv p)
    (hhead : headIdOf p = some i) (hkey : hb'.meta.blockID = i)
    (h1 : headIdOf q = some p.nextID)
    (h2 : q.walBlocks = mapInsert i hb' p.walBlocks)
    (h3 : q.completeBlocks = p.completeBlocks) (h4 : q.nextID = p.nextID + 1) :
    Inv q ∧ ∀ j, allowed (stage p j) (stage q j) := by
  have hiw : i ∉ keysOf p.walBlocks := h.headWal i hhead
  have hic : i ∉ keysOf p.completeBlocks := h.headComp i hhead
  have hilt : i < p.nextID := h.headLt i hhead
  have h2' : q.walBlocks = p.walBlocks ++ [(i, hb')] := by
    rw [h2, mapInsert_not_mem _ _ _ hiw]
  have hkq : keysOf q.walBlocks = keysOf p.walBlocks ++ [i] := by
    rw [h2', keysOf_append]
    rfl
  constructor
  · refine ⟨?_, ?_, ?_, ?_, ?_, ?_, ?_, ?_, ?_, ?_⟩
    · rw [hkq, h4]
      intro k hk
      rcases List.mem_append.mp hk with hk | hk
      · exact Nat.lt_succ_of_lt (h.walLt k hk)
      · simp at hk
        subst hk
        exact Nat.lt_succ_of_lt hilt
    · rw [h3, h4]
      exact fun k hk => Nat.lt_succ_of_lt (h.compLt k hk)
    · rw [h1, h4]
      intro j hj
      cases hj
      exact Nat.lt_succ_self _
    · rw [h1, hkq]
      intro j hj
      cases hj
      intro hcmem
      rcases List.mem_append.mp hcmem with hk | hk
      · exact Nat.lt_irrefl _ (h.walLt _ hk)
      · simp at hk
        subst hk
        exact Nat.lt_irrefl _ hilt
    · rw [h1, h3]
      intro j hj
      cases hj
      intro hcmem
      exact Nat.lt_irrefl _ (h.compLt _ hcmem)
    · rw [hkq, h3]
      intro k hk
      rcases List.mem_append.mp hk with hk | hk
      · exact h.disj k hk
      · simp at hk
        subst hk
        exact hic
    · rw [hkq]
      refine List.Nodup.append h.walNodup (List.nodup_singleton i) ?_
      intro a ha hmem
      simp at hmem
      subst hmem
      exact hiw ha
    · rw [h3]; exact h.compNodup
    · rw [h2']
      intro entry hmem
      rcases List.mem_append.mp hmem with hk | hk
      · exact h.walKeys entry hk
      · simp at hk
        subst hk
        exact hkey
    · rw [h3]; exact h.compKeys
  · intro j
    by_cases hji : j = i
    · subst hji
      have hpre : stage p j = 1 := by
        unfold stage
        rw [if_pos hhead]
      have hpost : stage q j = 2 := by
        unfold stage
        have hne : ¬(headIdOf q = some j) := by
          rw [h1]
          intro hcc
          exact Nat.lt_irrefl _ (Option.some_inj.mp hcc ▸ hilt)
        rw [if_neg hne, if_pos (by rw [hkq]; exact List.mem_append_right _ (by simp))]
      rw [hpre, hpost]
      right; right; left
      exact ⟨rfl, rfl⟩
    · by_cases hjn : j = p.nextID
      · subst hjn
        have hpre : stage p p.nextID = 0 := by
          unfold stage
          rw [if_neg (by rw [hhead]; intro hcc; exact hji (Option.some_inj.mp hcc).symm),
            if_neg (fun hcc => Nat.lt_irrefl _ (h.walLt _ hcc)),
            if_neg (fun hcc => Nat.lt_irrefl _ (h.compLt _ hcc)),
            if_neg (Nat.lt_irrefl _)]
        have hpost : stage q p.nextID = 1 := by
          unfold stage
          rw [if_pos h1]
        rw [hpre, hpost]
        right; left
        exact ⟨rfl, rfl⟩
      · left
        apply stage_congr
        · rw [h1, hhead]
          constructor
          · intro hcc; exact absurd (Option.some_inj.mp hcc).symm hjn
          · intro hcc; exact absurd (Option.some_inj.mp hcc).symm hji
        · rw [hkq]
          constructor
          · intro hcc
            rcases List.mem_append.mp hcc with hk | hk
            · exact hk
            · simp at hk; exact absurd hk hji
          · intro hcc; exact List.mem_append_left _ hcc
        · rw [h3]
        · rw [h4]
          constructor
          · intro hcc
            rcases Nat.lt_succ_iff_lt_or_eq.mp hcc with hcc | hcc
            · exact hcc
            · exact absurd hcc hjn
          · exact Nat.lt_succ_of_lt

/-- Shape lemma: compacting the first write-ahead block — it leaves the
write-ahead set and enters the complete set under the same identifier; head
and counter are untouched. -/
theorem shape_complete (p q : Processor) (idb : Nat) (b : WALBlock)
    (rest : List (Nat × WALBlock)) (h : Inv p)
    (hwal : p.walBlocks = (idb, b) :: rest)
    (h1 : headIdOf q = headIdOf p)
    (h2 : q.walBlocks = rest)
    (h3 : q.completeBlocks =
      mapInsert b.meta.blockID (BackendBlock.mk b.meta) p.completeBlocks)
    (h4 : q.nextID = p.nextID) :
    Inv q ∧ ∀ j, allowed (stage p j) (stage q j) := by
  have hkey : b.meta.blockID = idb := h.walKeys (idb, b) (by rw [hwal]; simp)
  have hkw : keysOf p.walBlocks = idb :: keysOf rest := by
    rw [hwal]; rfl
  have hidw : idb ∈ keysOf p.walBlocks := by rw [hkw]; simp
  have hidc : idb ∉ keysOf p.completeBlocks := h.disj idb hidw
  have hsubw : ∀ k, k ∈ keysOf rest → k ∈ keysOf p.walBlocks := by
    intro k hk; rw [hkw]; simp [hk]
  have h3' : q.completeBlocks =
      p.completeBlocks ++ [(idb, BackendBlock.mk b.meta)] := by
    rw [h3, hkey, mapInsert_not_mem _ _ _ hidc]
  have hkc : keysOf q.completeBlocks = keysOf p.completeBlocks ++ [idb] := by
    rw [h3', keysOf_append]; rfl
  have hnodup := h.walNodup
  rw [hkw] at hnodup
  have hidrest : idb ∉ keysOf rest := (List.nodup_cons.mp hnodup).1
  have hrestnodup : (keysOf rest).Nodup := (List.nodup_cons.mp hnodup).2
  constructor
  · refine ⟨?_, ?_, ?_, ?_, ?_, ?_, ?_, ?_, ?_, ?_⟩
    · rw [h2, h4]
      exact fun k hk => h.walLt k (hsubw k hk)
    · rw [hkc, h4]
      intro k hk
      rcases List.mem_append.mp hk with hk | hk
      · exact h.compLt k hk
      · simp at hk; subst hk; exact h.walLt _ hidw
    · rw [h1, h4]; exact h.headLt
    · rw [h1, h2]
      intro i hi
      exact fun hcc => h.headWal i hi (hsubw i hcc)
    · rw [h1, hkc]
      intro i hi hcc
      rcases List.mem_append.mp hcc with hk | hk
      · exact h.headComp i hi hk
      · simp at hk; subst hk; exact h.headWal i hi hidw
    · rw [h2, hkc]
      intro k hk hcc
      rcases List.mem_append.mp hcc with hcm | hcm
      · exact h.disj k (hsubw k hk) hcm
      · simp at hcm; subst hcm; exact hidrest hk
    · rw [h2]; exact hrestnodup
    · rw [hkc]
      refine List.Nodup.append h.compNodup (List.nodup_singleton idb) ?_
      intro a ha hmem
      simp at hmem; subst hmem
      exact hidc ha
    · rw [h2]
      intro entry hmem
      exact h.walKeys entry (by rw [hwal]; simp [hmem])
    · rw [h3']
      intro entry hmem
      rcases List.mem_append.mp hmem with hk | hk
      · exact h.compKeys entry hk
      · simp at hk; subst hk; exact hkey
  · intro j
    by_cases hji : j = idb
    · subst hji
      have hheadne : ¬(headIdOf p = some j) :=
        fun hcc => h.headWal j hcc hidw
      have hpre : stage p j = 2 := by
        unfold stage
        rw [if_neg hheadne, if_pos hidw]
      have hpost : stage q j = 3 := by
        unfold stage
        rw [h1, if_neg hheadne, h2, if_neg hidrest,
          if_pos (by rw [hkc]; exact List.mem_append_right _ (by simp))]
      rw [hpre, hpost]
      right; right; right; left
      exact ⟨rfl, rfl⟩
    · left
      apply stage_congr
      · rw [h1]
      · rw [h2, hkw]
        constructor
        · intro hcc; simp [hcc]
        · intro hcc
          rcases List.mem_cons.mp hcc with hcc | hcc
          · exact absurd hcc hji
          · exact hcc
      · rw [hkc]
        constructor
        · intro hcc
          rcases List.mem_append.mp hcc with hcc | hcc
          · exact hcc
          · simp at hcc; exact absurd hcc hji
        · exact fun hcc => List.mem_append_left _ hcc
      · rw [h4]

theorem keysOf_filter_subset {κ α : Type} (f : κ × α → Bool)
    (m : List (κ × α)) : ∀ k, k ∈ keysOf (m.filter f) → k ∈ keysOf m := by
  intro k hk
  have hs : List.Sublist (keysOf (m.filter f)) (keysOf m) :=
    List.Sublist.map Prod.fst (List.filter_sublist m)
  exact hs.subset hk

/-- Shape lemma: retention deletion — both sets are filtered, head and
counter untouched. -/
theorem shape_delete (p q : Processor) (fw : Nat × WALBlock → Bool)
    (fc : Nat × BackendBlock → Bool) (h : Inv p)
    (h1 : headIdOf q = headIdOf p)
    (h2 : q.walBlocks = p.walBlocks.filter fw)
    (h3 : q.completeBlocks = p.completeBlocks.filter fc)
    (h4 : q.nextID = p.nextID) :
    Inv q ∧ ∀ j, allowed (stage p j) (stage q j) := by
  have hsw : ∀ k, k ∈ keysOf q.walBlocks → k ∈ keysOf p.walBlocks := by
    rw [h2]; exact keysOf_filter_subset fw p.walBlocks
  have hsc : ∀ k, k ∈ keysOf q.completeBlocks → k ∈ keysOf p.completeBlocks := by
    rw [h3]; exact keysOf_filter_subset fc p.completeBlocks
  constructor
  · refine ⟨?_, ?_, ?_, ?_, ?_, ?_, ?_, ?_, ?_, ?_⟩
    · rw [h4]; exact fun k hk => h.walLt k (hsw k hk)
    · rw [h4]; exact fun k hk => h.compLt k (hsc k hk)
    · rw [h1, h4]; exact h.headLt
    · rw [h1]; exact fun i hi hcc => h.headWal i hi (hsw i hcc)
    · rw [h1]; exact fun i hi hcc => h.headComp i hi (hsc i hcc)
    · exact fun k hk hcc => h.disj k (hsw k hk) (hsc k hcc)
    · rw [h2]
      exact (List.Sublist.map Prod.fst (List.filter_sublist p.walBlocks)).nodup
        h.walNodup
    · rw [h3]
      exact (List.Sublist.map Prod.fst (List.filter_sublist p.completeBlocks)).nodup
        h.compNodup
    · rw [h2]
      exact fun entry hmem => h.walKeys entry (List.mem_filter.mp hmem).1
    · rw [h3]
      exact fun entry hmem => h.compKeys entry (List.mem_filter.mp hmem).1
  · intro j
    by_cases a1 : headIdOf p = some j
    · left
      unfold stage
      rw [h1, if_pos a1, if_pos a1]
    · by_cases a2 : j ∈ keysOf q.walBlocks
      · left
        apply stage_congr
        · rw [h1]
        · exact ⟨fun hcc => hsw j hcc, fun _ => a2⟩
        · constructor
          · exact fun hcc => hsc j hcc
          · intro hcc
            exact absurd hcc (h.disj j (hsw j a2))
        · rw [h4]
      · by_cases a3 : j ∈ keysOf p.walBlocks
        · -- removed from the write-ahead set: 2 → 4
          have hpre : stage p j = 2 := by
            unfold stage
            rw [if_neg a1, if_pos a3]
          have hpost : stage q j = 4 := by
            unfold stage
            rw [h1, if_neg a1, if_neg a2,
              if_neg (fun hcc => h.disj j a3 (hsc j hcc)), h4,
              if_pos (h.walLt j a3)]
          rw [hpre, hpost]
          right; right; right; right
          exact ⟨Or.inr (Or.inl rfl), rfl⟩
        · by_cases a4 : j ∈ keysOf q.completeBlocks
          · left
            apply stage_congr
            · rw [h1]
            · exact ⟨fun hcc => absurd hcc a2, fun hcc => absurd hcc a3⟩
            · exact ⟨fun hcc => hsc j hcc, fun _ => a4⟩
            · rw [h4]
          · by_cases a5 : j ∈ keysOf p.completeBlocks
            · -- removed from the complete set: 3 → 4
              have hpre : stage p j = 3 := by
                unfold stage
                rw [if_neg a1, if_neg a3, if_pos a5]
              have hpost : stage q j = 4 := by
                unfold stage
                rw [h1, if_neg a1, if_neg a2, if_neg a4, h4,
                  if_pos (h.compLt j a5)]
              rw [hpre, hpost]
              right; right; right; right
              exact ⟨Or.inr (Or.inr rfl), rfl⟩
            · left
              apply stage_congr
              · rw [h1]
              · exact ⟨fun hcc => absurd hcc a2, fun hcc => absurd hcc a3⟩
              · exact ⟨fun hcc => absurd hcc a4, fun hcc => absurd hcc a5⟩
              · rw [h4]

theorem headIdOf_eq_none (q : Processor) :
    headIdOf q = none ↔ q.headBlock = none := by
  unfold headIdOf
  cases q.headBlock <;> simp

theorem pushBatch_fields (p : Processor) (now : Int) (b : ResourceSpans) :
    (pushBatch p now b).1.headBlock = p.headBlock ∧
    (pushBatch p now b).1.walBlocks = p.walBlocks ∧
    (pushBatch p now b).1.completeBlocks = p.completeBlocks ∧
    (pushBatch p now b).1.nextID = p.nextID := by
  unfold pushBatch
  cases filterBatch b with
  | none => exact ⟨rfl, rfl, rfl, rfl⟩
  | some fb =>
    dsimp only
    cases p.liveTraces.Push now fb p.cfg.maxLiveTraces with
    | error e => cases e; exact ⟨rfl, rfl, rfl, rfl⟩
    | ok lt' => exact ⟨rfl, rfl, rfl, rfl⟩

theorem pushList_fields (now : Int) :
    ∀ (bs : List ResourceSpans) (p : Processor),
      (pushList p now bs).1.headBlock = p.headBlock ∧
      (pushList p now bs).1.walBlocks = p.walBlocks ∧
      (pushList p now bs).1.completeBlocks = p.completeBlocks ∧
      (pushList p now bs).1.nextID = p.nextID := by
  intro bs
  induction bs with
  | nil => intro p; exact ⟨rfl, rfl, rfl, rfl⟩
  | cons b rest ih =>
    intro p
    obtain ⟨h1, h2, h3, h4⟩ := pushBatch_fields p now b
    obtain ⟨g1, g2, g3, g4⟩ := ih (pushBatch p now b).1
    exact ⟨g1.trans h1, g2.trans h2, g3.trans h3, g4.trans h4⟩

theorem writeHeadBlock_fields (env : Env) (now : Int) (idr : List Nat) (l : Nat)
    (p : Processor) :
    (writeHeadBlock env now idr l p).st.walBlocks = p.walBlocks ∧
    (writeHeadBlock env now idr l p).st.completeBlocks = p.completeBlocks ∧
    ((headIdOf (writeHeadBlock env now idr l p).st = headIdOf p ∧
        (writeHeadBlock env now idr l p).st.nextID = p.nextID) ∨
      (p.headBlock = none ∧
        headIdOf (writeHeadBlock env now idr l p).st = some p.nextID ∧
        (writeHeadBlock env now idr l p).st.nextID = p.nextID + 1)) := by
  unfold writeHeadBlock appendToHead resetHeadBlock
  cases hh : p.headBlock with
  | none =>
    by_cases hn : env.newBlockOk
    · by_cases ha : env.appendOk p.nextID
      · simp [hn, ha, headIdOf, freshWAL, hh]
      · simp [hn, ha, headIdOf, freshWAL, hh]
    · simp [hn, headIdOf, hh]
  | some hb =>
    by_cases ha : env.appendOk hb.meta.blockID
    · simp [ha, headIdOf, hh]
    · simp [ha, headIdOf, hh]

theorem writeAll_fields (env : Env) (now : Int) :
    ∀ (ts : List LiveTrace) (p : Processor),
      (writeAll env now ts p).st.walBlocks = p.walBlocks ∧
      (writeAll env now ts p).st.completeBlocks = p.completeBlocks ∧
      ((headIdOf (writeAll env now ts p).st = headIdOf p ∧
          (writeAll env now ts p).st.nextID = p.nextID) ∨
        (p.headBlock = none ∧
          headIdOf (writeAll env now ts p).st = some p.nextID ∧
          (writeAll env now ts p).st.nextID = p.nextID + 1)) := by
  intro ts
  induction ts with
  | nil => intro p; exact ⟨rfl, rfl, Or.inl ⟨rfl, rfl⟩⟩
  | cons t rest ih =>
    intro p
    unfold writeAll
    simp only []
    cases he : (writeHeadBlock env now t.id (encodedLen t) p).err with
    | some e =>
      obtain ⟨h1, h2, h3⟩ := writeHeadBlock_fields env now t.id (encodedLen t) p
      exact ⟨h1, h2, h3⟩
    | none =>
      obtain ⟨h1, h2, h3⟩ := writeHeadBlock_fields env now t.id (encodedLen t) p
      obtain ⟨g1, g2, g3⟩ := ih (writeHeadBlock env now t.id (encodedLen t) p).st
      refine ⟨g1.trans h1, g2.trans h2, ?_⟩
      rcases h3 with ⟨hid, hnid⟩ | ⟨hnone, hid, hnid⟩
      · rcases g3 with ⟨gid, gnid⟩ | ⟨gnone, gid, gnid⟩
        · exact Or.inl ⟨gid.trans hid, gnid.trans hnid⟩
        · refine Or.inr ⟨?_, ?_, ?_⟩
          · rw [← headIdOf_eq_none, ← hid, headIdOf_eq_none]
            exact gnone
          · rw [gid, hnid]
          · rw [gnid, hnid]
      · rcases g3 with ⟨gid, gnid⟩ | ⟨gnone, gid, gnid⟩
        · exact Or.inr ⟨hnone, gid.trans hid, gnid.trans hnid⟩
        · exfalso
          have : headIdOf (writeHeadBlock env now t.id (encodedLen t) p).st = none :=
            (headIdOf_eq_none _).mpr gnone
          rw [hid] at this
          exact Option.noConfusion this

theorem cutIdleSince_fields (env : Env) (since : Option Int) (now : Int)
    (p : Processor) :
    (cutIdleTracesSince env since now p).st.walBlocks = p.walBlocks ∧
    (cutIdleTracesSince env since now p).st.completeBlocks = p.completeBlocks ∧
    ((headIdOf (cutIdleTracesSince env since now p).st = headIdOf p ∧
        (cutIdleTracesSince env since now p).st.nextID = p.nextID) ∨
      (p.headBlock = none ∧
        headIdOf (cutIdleTracesSince env since now p).st = some p.nextID ∧
        (cutIdleTracesSince env since now p).st.nextID = p.nextID + 1)) := by
  unfold cutIdleTracesSince
  simp only []
  split
  · exact ⟨rfl, rfl, Or.inl ⟨rfl, rfl⟩⟩
  · have hfields := writeAll_fields env now
      (sortTraces (p.liveTraces.CutIdle since).1)
      { p with liveTraces := (p.liveTraces.CutIdle since).2 }
    cases hw : (writeAll env now (sortTraces (p.liveTraces.CutIdle since).1)
        { p with liveTraces := (p.liveTraces.CutIdle since).2 }).err with
    | some e => exact hfields
    | none =>
      cases hh : (writeAll env now (sortTraces (p.liveTraces.CutIdle since).1)
          { p with liveTraces := (p.liveTraces.CutIdle since).2 }).st.headBlock with
      | none => exact hfields
      | some hb =>
        by_cases hf : env.flushOk hb.meta.blockID
        · simp only [hf, if_true]
          obtain ⟨h1, h2, h3⟩ := hfields
          refine ⟨h1, h2, ?_⟩
          have hsame : headIdOf { (writeAll env now
              (sortTraces (p.liveTraces.CutIdle since).1)
              { p with liveTraces := (p.liveTraces.CutIdle since).2 }).st with
                headBlock := some { hb with flushed := true } } =
              headIdOf (writeAll env now
              (sortTraces (p.liveTraces.CutIdle since).1)
              { p with liveTraces := (p.liveTraces.CutIdle since).2 }).st := by
            simp [headIdOf, hh]
          rcases h3 with ⟨hid, hnid⟩ | ⟨hnone, hid, hnid⟩
          · exact Or.inl ⟨hsame.trans hid, hnid⟩
          · exact Or.inr ⟨hnone, hsame.trans hid, hnid⟩
        · simp only [hf, Bool.false_eq_true, if_false]
          exact hfields

theorem cutBlocks_envAll_shape (imm : Bool) (now : Int) (p : Processor) :
    (cutBlocks envAll imm now p).st = p ∨
    (∃ hb, p.headBlock = some hb ∧
      headIdOf p = some hb.meta.blockID ∧
      (cutBlocks envAll imm now p).st.walBlocks =
        mapInsert hb.meta.blockID { hb with flushed := true } p.walBlocks ∧
      headIdOf (cutBlocks envAll imm now p).st = some p.nextID ∧
      (cutBlocks envAll imm now p).st.completeBlocks = p.completeBlocks ∧
      (cutBlocks envAll imm now p).st.nextID = p.nextID + 1) := by
  unfold cutBlocks
  cases hh : p.headBlock with
  | none => left; rfl
  | some hb =>
    by_cases hz : hb.dataLen = 0
    · left
      simp [hz]
    · by_cases hc : (!imm
          && decide (now - p.lastCutTime < p.cfg.maxBlockDuration)
          && decide (hb.dataLen < p.cfg.maxBlockBytes)) = true
      · left
        simp only [if_neg hz, hc, if_true]
      · right
        refine ⟨hb, rfl, by simp [headIdOf, hh], ?_, ?_, ?_, ?_⟩ <;>
          simp [if_neg hz, hc, envAll, resetHeadBlock, headIdOf, freshWAL]

theorem completeBlock_envAll_shape (p : Processor) :
    (p.walBlocks = [] ∧ (completeBlock envAll p).st = p) ∨
    (∃ idb b rest, p.walBlocks = (idb, b) :: rest ∧
      (completeBlock envAll p).st.walBlocks = rest ∧
      (completeBlock envAll p).st.completeBlocks =
        mapInsert b.meta.blockID (BackendBlock.mk b.meta) p.completeBlocks ∧
      headIdOf (completeBlock envAll p).st = headIdOf p ∧
      (completeBlock envAll p).st.nextID = p.nextID) := by
  unfold completeBlock
  cases hw : p.walBlocks with
  | nil => left; exact ⟨rfl, rfl⟩
  | cons q rest =>
    obtain ⟨idb, b⟩ := q
    right
    refine ⟨idb, b, rest, rfl, ?_, ?_, ?_, ?_⟩ <;>
      simp [envAll, createdMeta, mapErase, headIdOf]

theorem deleteOldBlocks_envAll_shape (now : Int) (p : Processor) :
    (deleteOldBlocks envAll now p).st.walBlocks =
      p.walBlocks.filter
        (fun q => !decide (q.2.meta.endTime < now - p.cfg.completeBlockTimeout)) ∧
    (deleteOldBlocks envAll now p).st.completeBlocks =
      p.completeBlocks.filter
        (fun q => !decide (q.2.meta.endTime < now - p.cfg.completeBlockTimeout)) ∧
    headIdOf (deleteOldBlocks envAll now p).st = headIdOf p ∧
    (deleteOldBlocks envAll now p).st.nextID = p.nextID := by
  unfold deleteOldBlocks
  simp only [delWalList_ok envAll _ (fun _ => rfl),
    delCompleteList_ok envAll _ (fun _ => rfl)]
  exact ⟨by trivial, by trivial, by trivial, by trivial⟩

theorem headIdOf_congr (q p : Processor) (h : q.headBlock = p.headBlock) :
    headIdOf q = headIdOf p := by
  unfold headIdOf
  rw [h]

theorem lifecycle_step (p : Processor) (op : OpC) (h : Inv p) :
    Inv (applyOp envAll p op) ∧
    ∀ j, allowed (stage p j) (stage (applyOp envAll p op) j) := by
  cases op with
  | push now bs =>
    obtain ⟨h1, h2, h3, h4⟩ := pushList_fields now bs p
    exact shape_same p _ h (headIdOf_congr _ _ h1) h2 h3 h4
  | cutIdle imm now =>
    obtain ⟨h1, h2, h3⟩ := cutIdleSince_fields envAll
      (if imm then none else some (now - p.cfg.traceIdlePeriod)) now p
    rcases h3 with ⟨hid, hnid⟩ | ⟨hnone, hid, hnid⟩
    · exact shape_same p _ h hid h1 h2 hnid
    · exact shape_alloc p _ h (by unfold headIdOf; rw [hnone]; rfl) hid h1 h2 hnid
  | cutBlk imm now =>
    rcases cutBlocks_envAll_shape imm now p with hsame | ⟨hb, _, hhid, hw, hhd, hc, hn⟩
    · exact shape_same p _ h (by unfold applyOp; dsimp only; rw [hsame])
        (by unfold applyOp; dsimp only; rw [hsame]) (by unfold applyOp; dsimp only; rw [hsame])
        (by unfold applyOp; dsimp only; rw [hsame])
    · exact shape_cut p _ { hb with flushed := true } hb.meta.blockID h hhid rfl
        hhd hw hc hn
  | complete =>
    rcases completeBlock_envAll_shape p with ⟨_, hsame⟩ |
      ⟨idb, b, rest, hwal, hw, hc, hhd, hn⟩
    · exact shape_same p _ h (by unfold applyOp; dsimp only; rw [hsame])
        (by unfold applyOp; dsimp only; rw [hsame]) (by unfold applyOp; dsimp only; rw [hsame])
        (by unfold applyOp; dsimp only; rw [hsame])
    · exact shape_complete p _ idb b rest h hwal hhd hw hc hn
  | delOld now =>
    obtain ⟨h1, h2, h3, h4⟩ := deleteOldBlocks_envAll_shape now p
    exact shape_delete p _ _ _ h h3 h1 h2 h4

theorem lt_maxKeyPlus : ∀ (l : List Nat), ∀ k ∈ l, k < maxKeyPlus l := by
  intro l
  induction l with
  | nil => intro k hk; exact absurd hk (List.not_mem_nil _)
  | cons a rest ih =>
    intro k hk
    unfold maxKeyPlus
    simp only [List.foldr]
    rcases List.mem_cons.mp hk with hk | hk
    · subst hk
      exact Nat.lt_of_lt_of_le (Nat.lt_succ_self k) (Nat.le_max_left _ _)
    · exact Nat.lt_of_lt_of_le (ih k hk) (Nat.le_max_right _ _)

theorem mem_mapInsert {κ α : Type} [DecidableEq κ] (k : κ) (v : α) :
    ∀ (m : List (κ × α)) q, q ∈ mapInsert k v m → q = (k, v) ∨ q ∈ m := by
  intro m
  induction m with
  | nil => intro q hq; simp [mapInsert] at hq; exact Or.inl hq
  | cons e rest ih =>
    intro q hq
    obtain ⟨k', v'⟩ := e
    by_cases hk : k' = k
    · rw [mapInsert, if_pos hk] at hq
      rcases List.mem_cons.mp hq with hq | hq
      · exact Or.inl hq
      · exact Or.inr (List.mem_cons_of_mem _ hq)
    · rw [mapInsert, if_neg hk] at hq
      rcases List.mem_cons.mp hq with hq | hq
      · exact Or.inr (by rw [hq]; simp)
      · rcases ih q hq with hq | hq
        · exact Or.inl hq
        · exact Or.inr (List.mem_cons_of_mem _ hq)

theorem mem_keysOf_iff {κ α : Type} (k : κ) (m : List (κ × α)) :
    k ∈ keysOf m ↔ ∃ q ∈ m, q.1 = k := by
  unfold keysOf
  rw [List.mem_map]

theorem nodup_keysOf_mapInsert {κ α : Type} [DecidableEq κ] (k : κ) (v : α)
    (m : List (κ × α)) (h : (keysOf m).Nodup) :
    (keysOf (mapInsert k v m)).Nodup := by
  by_cases hk : k ∈ keysOf m
  · rw [keysOf_mapInsert_mem k v m hk]
    exact h
  · rw [mapInsert_not_mem k v m hk, keysOf_append]
    refine List.Nodup.append h (List.nodup_singleton k) ?_
    intro a ha hmem
    simp [keysOf] at hmem
    subst hmem
    exact hk ha

theorem keysOf_mapInsert_sub {κ α : Type} [DecidableEq κ] (k : κ) (v : α)
    (m : List (κ × α)) :
    ∀ j, j ∈ keysOf (mapInsert k v m) → j = k ∨ j ∈ keysOf m := by
  intro j hj
  rcases (mem_keysOf_iff j _).mp hj with ⟨q, hq, rfl⟩
  rcases mem_mapInsert k v m q hq with hq2 | hq2
  · left; rw [hq2]
  · right; exact (mem_keysOf_iff _ _).mpr ⟨q, hq2, rfl⟩

/-- Entries and key bounds of the WAL-rescan fold in `reloadBlocks`. -/
theorem walbFold_facts (tenant : String) :
    ∀ (wals : List WALBlock) (m : List (Nat × WALBlock)),
      ((keysOf m).Nodup →
        (keysOf (wals.foldl (fun m b =>
          if b.meta.tenantID = tenant then mapInsert b.meta.blockID b m else m) m)).Nodup) ∧
      (∀ q, q ∈ wals.foldl (fun m b =>
          if b.meta.tenantID = tenant then mapInsert b.meta.blockID b m else m) m →
        q ∈ m ∨ ∃ b ∈ wals, q = (b.meta.blockID, b)) := by
  intro wals
  induction wals with
  | nil =>
    intro m
    exact ⟨fun h => h, fun q hq => Or.inl hq⟩
  | cons b rest ih =>
    intro m
    constructor
    · intro h
      simp only [List.foldl]
      by_cases ht : b.meta.tenantID = tenant
      · rw [if_pos ht]
        exact (ih _).1 (nodup_keysOf_mapInsert _ _ _ h)
      · rw [if_neg ht]
        exact (ih _).1 h
    · intro q hq
      simp only [List.foldl] at hq
      by_cases ht : b.meta.tenantID = tenant
      · rw [if_pos ht] at hq
        rcases (ih _).2 q hq with hq2 | ⟨b', hb', rfl⟩
        · rcases mem_mapInsert _ _ _ q hq2 with hq3 | hq3
          · exact Or.inr ⟨b, by simp, hq3⟩
          · exact Or.inl hq3
        · exact Or.inr ⟨b', List.mem_cons_of_mem _ hb', rfl⟩
      · rw [if_neg ht] at hq
        rcases (ih _).2 q hq with hq2 | ⟨b', hb', rfl⟩
        · exact Or.inl hq2
        · exact Or.inr ⟨b', List.mem_cons_of_mem _ hb', rfl⟩

/-- The complete blocks recovered by `reloadComplete`: their keys are a
sublist of the listed identifiers, and each entry comes from a successful
metadata read of its own key. -/
theorem reloadComplete_facts (renv : RecoveryEnv) :
    ∀ ids : List Nat,
      List.Sublist (keysOf (reloadComplete renv ids).1) ids ∧
      (∀ q, q ∈ (reloadComplete renv ids).1 →
        ∃ m, renv.blockMeta q.1 = MetaResult.found m ∧ q.2 = BackendBlock.mk m) := by
  intro ids
  induction ids with
  | nil => exact ⟨List.Sublist.refl _, fun q hq => absurd hq (List.not_mem_nil _)⟩
  | cons i rest ih =>
    constructor
    · unfold reloadComplete
      cases hm : renv.blockMeta i with
      | notFound =>
        exact List.Sublist.cons i ih.1
      | failed e =>
        exact List.nil_sublist _
      | found m =>
        by_cases ho : renv.openOk i
        · simp only [ho, if_true]
          exact List.Sublist.cons₂ i ih.1
        · simp only [ho, Bool.false_eq_true, if_false]
          exact List.nil_sublist _
    · unfold reloadComplete
      cases hm : renv.blockMeta i with
      | notFound =>
        intro q hq
        exact ih.2 q hq
      | failed e =>
        intro q hq
        exact absurd hq (List.not_mem_nil _)
      | found m =>
        by_cases ho : renv.openOk i
        · simp only [ho, if_true]
          intro q hq
          rcases List.mem_cons.mp hq with hq | hq
          · subst hq
            exact ⟨m, hm, rfl⟩
          · exact ih.2 q hq
        · simp only [ho, Bool.false_eq_true, if_false]
          intro q hq
          exact absurd hq (List.not_mem_nil _)

/-- Well-behaved recovery environment, reflecting the physical guarantees of
the store: backend block listings are duplicate-free, metadata describes the
block it was read for, and recovered WAL segments never share an identifier
with a backend block (identifiers are UUIDs). -/
def goodRenv (renv : RecoveryEnv) : Prop :=
  (∀ ids, renv.blockIDs = Except.ok ids → ids.Nodup) ∧
  (∀ i m, renv.blockMeta i = MetaResult.found m → m.blockID = i) ∧
  (∀ wals ids, renv.rescan = Except.ok wals → renv.blockIDs = Except.ok ids →
    ∀ b ∈ wals, b.meta.blockID ∉ ids)

theorem recovery_init (cfg : Config) (tenant : String) (renv : RecoveryEnv)
    (p₀ : Processor) (hg : goodRenv renv)
    (hok : New cfg tenant renv = Except.ok p₀) : Inv p₀ := by
  unfold New at hok
  cases hrb : reloadBlocks renv tenant with
  | error e => rw [hrb] at hok; exact absurd hok (by simp)
  | ok r =>
    rw [hrb] at hok
    simp only [Except.ok.injEq] at hok
    subst hok
    unfold reloadBlocks at hrb
    cases hres : renv.rescan with
    | error e => rw [hres] at hrb; exact absurd hrb (by simp)
    | ok wals =>
      rw [hres] at hrb
      simp only [] at hrb
      cases hten : renv.tenants with
      | error e => rw [hten] at hrb; exact absurd hrb (by simp)
      | ok ts =>
        rw [hten] at hrb
        simp only [] at hrb
        have hwfacts := walbFold_facts tenant wals ([] : List (Nat × WALBlock))
        have hwnodup := hwfacts.1 List.nodup_nil
        have hwmem := hwfacts.2
        by_cases hempty : ts.isEmpty
        · rw [if_pos hempty] at hrb
          simp only [Except.ok.injEq] at hrb
          subst hrb
          refine ⟨?_, ?_, ?_, ?_, ?_, ?_, ?_, ?_, ?_, ?_⟩
          · intro k hk
            exact lt_maxKeyPlus _ k (List.mem_append_left _ hk)
          · intro k hk
            exact absurd hk (List.not_mem_nil _)
          · intro i hi; exact absurd hi (by simp [headIdOf])
          · intro i hi; exact absurd hi (by simp [headIdOf])
          · intro i hi; exact absurd hi (by simp [headIdOf])
          · intro k _ hc
            exact absurd hc (List.not_mem_nil _)
          · exact hwnodup
          · exact List.nodup_nil
          · intro q hq
            rcases hwmem q hq with hq2 | ⟨b, _, rfl⟩
            · exact absurd hq2 (List.not_mem_nil _)
            · rfl
          · intro q hq
            exact absurd hq (List.not_mem_nil _)
        · rw [if_neg hempty] at hrb
          cases hids : renv.blockIDs with
          | error e => rw [hids] at hrb; exact absurd hrb (by simp)
          | ok ids =>
            rw [hids] at hrb
            simp only [] at hrb
            cases herr : (reloadComplete renv ids).2.2 with
            | some e => rw [herr] at hrb; exact absurd hrb (by simp)
            | none =>
              rw [herr] at hrb
              simp only [Except.ok.injEq] at hrb
              subst hrb
              have hcfacts := reloadComplete_facts renv ids
              have hcsub : ∀ k, k ∈ keysOf (reloadComplete renv ids).1 → k ∈ ids :=
                fun k hk => hcfacts.1.subset hk
              have hwnotids : ∀ k, k ∈ keysOf (wals.foldl (fun m b =>
                  if b.meta.tenantID = tenant then mapInsert b.meta.blockID b m else m)
                  []) → k ∉ ids := by
                intro k hk
                rcases (mem_keysOf_iff k _).mp hk with ⟨q, hq, rfl⟩
                rcases hwmem q hq with hq2 | ⟨b, hb, rfl⟩
                · exact absurd hq2 (List.not_mem_nil _)
                · exact hg.2.2 wals ids hres hids b hb
              refine ⟨?_, ?_, ?_, ?_, ?_, ?_, ?_, ?_, ?_, ?_⟩
              · intro k hk
                exact lt_maxKeyPlus _ k (List.mem_append_left _ hk)
              · intro k hk
                exact lt_maxKeyPlus _ k (List.mem_append_right _ hk)
              · intro i hi; exact absurd hi (by simp [headIdOf])
              · intro i hi; exact absurd hi (by simp [headIdOf])
              · intro i hi; exact absurd hi (by simp [headIdOf])
              · intro k hk hc
                exact hwnotids k hk (hcsub k hc)
              · exact hwnodup
              · exact hcfacts.1.nodup (hg.1 ids hids)
              · intro q hq
                rcases hwmem q hq with hq2 | ⟨b, _, rfl⟩
                · exact absurd hq2 (List.not_mem_nil _)
                · rfl
              · intro q hq
                rcases hcfacts.2 q hq with ⟨m, hm, hq2⟩
                rw [hq2]
                exact hg.2.1 q.1 m hm

/-- C6 (amended): starting from a successfully constructed engine (recovery
included, under the physical guarantees `goodRenv` of the store), every
operation whose storage calls succeed preserves the lifecycle invariant
(identifiers below the allocation counter, head in neither set, the
write-ahead and complete sets disjoint and duplicate-free, entries keyed by
their own identifier), and moves every block identifier only along the
forward lifecycle unborn → head → write-ahead → complete → deleted (deletion
also directly from head or write-ahead), never backward and never skipping
forward; in particular a fresh head identifier is never a reused one.  The
original claim additionally asserted the write-ahead/complete disjointness
in every reachable state including runs with storage failures; that part is
false on the code (see the counterexample): a `completeBlock` whose source
`Clear` fails leaves the identifier in both sets until a retry succeeds. -/
theorem lifecycle_spec :
    (∀ cfg tenant renv p₀, goodRenv renv →
      New cfg tenant renv = Except.ok p₀ → Inv p₀) ∧
    (∀ p op, Inv p →
      Inv (applyOp envAll p op) ∧
      ∀ j, allowed (stage p j) (stage (applyOp envAll p op) j)) :=
  ⟨fun cfg tenant renv p₀ hg hok => recovery_init cfg tenant renv p₀ hg hok,
   fun p op h => lifecycle_step p op h⟩

/-- A trivial first-startup recovery environment: nothing to recover. -/
def emptyRenv : RecoveryEnv :=
  RecoveryEnv.mk (Except.ok []) (Except.ok []) (Except.ok [])
    (fun _ => MetaResult.notFound) (fun _ => true) (fun _ => true)

/-- The processor `New` builds from `emptyRenv`. -/
def newP0 : Processor :=
  Processor.mk "t" cutCfg none [] [] 0 (LiveTraces.mk []) 0

theorem goodRenv_emptyRenv : goodRenv emptyRenv := by
  refine ⟨?_, ?_, ?_⟩
  · intro ids h
    cases h
    exact List.nodup_nil
  · intro i m h
    exact MetaResult.noConfusion h
  · intro wals ids h1 h2 b hb
    cases h2
    exact List.not_mem_nil _

theorem lifecycle_spec_witness :
    Inv newP0 ∧ Inv (applyOp envAll newP0 (OpC.cutIdle true 0)) := by
  have hinit := lifecycle_spec.1 cutCfg "t" emptyRenv newP0 goodRenv_emptyRenv rfl
  exact ⟨hinit, (lifecycle_spec.2 newP0 (OpC.cutIdle true 0) hinit).1⟩

/-- Environment in which clearing a WAL block's storage fails. -/
def envNoClear : Env :=
  Env.mk true (fun _ => true) (fun _ => true) (fun _ => true)
    (fun _ => true) (fun _ => true) (fun _ => false) (fun _ => true)

/-- States along a concrete run: construct, push one batch, immediate idle
cut, immediate block cut, then a compaction whose source clear fails. -/
def cexP1 : Processor := (PushSpans newP0 0 [pushBatchNew]).1

/-- After the immediate idle cut. -/
def cexP2 : Processor := (cutIdleTraces envAll true 1 cexP1).st

/-- After the immediate block cut: block 0 is in the write-ahead set. -/
def cexP3 : Processor := (cutBlocks envAll true 2 cexP2).st

/-- After a compaction in which the source clear failed (the `completeLoop`
logs such an error and keeps running, so this state persists until the next
tick). -/
def cexP4 : Processor := (completeBlock envNoClear cexP3).st

/-- Counterexample to C6 as stated: in the run above — reachable from a
fresh engine because the periodic loops continue after storage errors —
block identifier 0 is simultaneously present in the write-ahead set and the
complete set (processor.go registers the complete block at line 230 before
clearing the source at line 232; when `Clear` fails, the function returns
with the source still in `walBlocks`). -/
theorem lifecycle_both_sets_cex :
    New cutCfg "t" emptyRenv = Except.ok newP0 ∧
    0 ∈ keysOf cexP4.walBlocks ∧ 0 ∈ keysOf cexP4.completeBlocks :=
  ⟨rfl, by decide, by decide⟩

/-! ## C9: no failure is silently dropped -/

theorem logged_st (r : StepRes) : (logged r).st = r.st := by
  unfold logged
  cases r.err <;> rfl

theorem logErr_mem_logged (r : StepRes) (h : r.err.isSome = true) :
    Event.logErr ∈ (logged r).evs := by
  unfold logged
  cases hr : r.err with
  | none => rw [hr] at h; exact absurd h (by simp)
  | some e => simp

/-- C9: every failure path of the engine is surfaced.  Each periodic tick
body (flush/cut, delete, compact) appends a log record whenever its
operation returns an error, as does each step of the final shutdown
sequence; the one error the live trace buffer's push can return during
`PushSpans` (`errMaxExceeded`) is surfaced as exactly one dropped-trace
counter increment — `PushSpans` has no other failure source and no error
return; and during recovery, the one failure that is absorbed rather than
returned — a remediation `ClearBlock` failing while a partially written
block is skipped (processor.go lines 428-438) — produces a log record,
while every failure `reloadBlocks` does return reaches the caller of `New`
as the construction error rather than being discarded. -/
theorem failures_surfaced (env : Env) (now : Int) (p : Processor) :
    ((cutIdleTraces env false now p).err.isSome = true →
      Event.logErr ∈ (flushTick env now p).2) ∧
    ((cutBlocks env false now (cutIdleTraces env false now p).st).err.isSome = true →
      Event.logErr ∈ (flushTick env now p).2) ∧
    ((deleteOldBlocks env now p).err.isSome = true →
      Event.logErr ∈ (deleteTick env now p).2) ∧
    ((completeBlock env p).err.isSome = true →
      Event.logErr ∈ (completeTick env p).2) ∧
    ((cutIdleTraces env true now p).err.isSome = true →
      Event.logErr ∈ (shutdownFinal env now p).2) ∧
    ((cutBlocks env true now (cutIdleTraces env true now p).st).err.isSome = true →
      Event.logErr ∈ (shutdownFinal env now p).2) ∧
    (∀ b fb, filterBatch b = some fb →
      p.liveTraces.Push now fb p.cfg.maxLiveTraces =
        Except.error PushError.maxExceeded →
      pushBatch p now b = (p, [Event.cDropped])) ∧
    (∀ renv idb rest, renv.blockMeta idb = MetaResult.notFound →
      renv.clearOk idb = false →
      Event.logErr ∈ (reloadComplete renv (idb :: rest)).2.1) ∧
    (∀ renv cfg tenant e, reloadBlocks renv tenant = Except.error e →
      New cfg tenant renv = Except.error ("replaying blocks: " ++ e)) := by
  refine ⟨?_, ?_, ?_, ?_, ?_, ?_, ?_, ?_, ?_⟩
  · intro h
    unfold flushTick
    exact List.mem_append_left _ (logErr_mem_logged _ h)
  · intro h
    unfold flushTick
    apply List.mem_append_right
    apply logErr_mem_logged
    rw [logged_st]
    exact h
  · intro h
    unfold deleteTick
    exact logErr_mem_logged _ h
  · intro h
    unfold completeTick
    exact logErr_mem_logged _ h
  · intro h
    unfold shutdownFinal
    exact List.mem_append_left _ (logErr_mem_logged _ h)
  · intro h
    unfold shutdownFinal
    apply List.mem_append_right
    apply logErr_mem_logged
    rw [logged_st]
    exact h
  · intro b fb hf hp
    unfold pushBatch
    rw [hf]
    dsimp only
    rw [hp]
  · intro renv idb rest h1 h2
    simp only [reloadComplete, h1, h2]
    simp
  · intro renv cfg tenant e h
    unfold New
    rw [h]

/-- A recovery environment whose tenant listing fails: `reloadBlocks`
returns the error and `New` must surface it. -/
def tenantsFailRenv : RecoveryEnv :=
  RecoveryEnv.mk (Except.ok []) (Except.error "tenants failed") (Except.ok [])
    (fun _ => MetaResult.notFound) (fun _ => true) (fun _ => true)

theorem failures_surfaced_witness :
    Event.logErr ∈ (completeTick envNoClear compP).2 ∧
    pushBatch pushP 5 pushBatchNew = (pushP, [Event.cDropped]) ∧
    Event.logErr ∈ (reloadComplete clearFailRenv [7, 9]).2.1 ∧
    New cutCfg "t" tenantsFailRenv =
      Except.error ("replaying blocks: " ++ "tenants failed") := by
  refine ⟨?_, ?_, ?_, ?_⟩
  · exact (failures_surfaced envNoClear 0 compP).2.2.2.1 (by decide)
  · exact (failures_surfaced envAll 5 pushP).2.2.2.2.2.2.1 pushBatchNew
      (ResourceSpans.mk 0 [ScopeSpans.mk 0 [Span.mk [2] SpanKind.server]])
      (by decide) (by rfl)
  · exact (failures_surfaced envAll 0 pushP).2.2.2.2.2.2.2.1 clearFailRenv 7 [9]
      rfl rfl
  · exact (failures_surfaced envAll 0 pushP).2.2.2.2.2.2.2.2 tenantsFailRenv
      cutCfg "t" "tenants failed" rfl

end Localblocks
